import Mathlib

/-!
Verification development for the YAML <-> JSON conversion core
(package `yaml`, file `yaml.go`, together with the behaviour of its
external collaborators: the YAML parser/emitter, the reflection-driven
field metadata, and the JSON record decoder).

The development shallowly embeds the conversion functions of `yaml.go`
(`convertToJSONableObject`, `yamlToJSON`, `JSONObjectToYAMLObject`,
`jsonToYAMLValue`, the entry points `Unmarshal`/`UnmarshalStrict`/
`YAMLToJSON`/`YAMLToJSONStrict`, and the error combination of
`Encoder.Encode`/`Decoder.Decode`) over an explicit value-tree model.
Machine floats are modelled exactly, as rationals that are values of
IEEE-754 binary64/binary32, with executable round-to-nearest-even and an
executable model of Go's `strconv.FormatFloat(v, 'g', -1, 32)`
shortest-round-trip formatting.
-/

set_option maxRecDepth 8000

namespace SigsYaml

/-! ## Go float64 model

A Go `float64` is modelled as `GoFloat`: either a finite value, carried
as the exact rational it denotes, or one of the IEEE specials.  (The
distinction between +0 and -0 is not modelled; no property below
depends on it.) -/

inductive GoFloat where
  | finite (q : ℚ)
  | inf
  | neginf
  | nan
deriving DecidableEq, Repr

/-- Fuel-driven base-`b` integer logarithm (so that it reduces
definitionally in the kernel, unlike the library's well-founded
`Nat.log`). -/
def nlogAux (b : Nat) : Nat → Nat → Nat
  | 0, _ => 0
  | fuel + 1, n => if b ≤ n ∧ 2 ≤ b then nlogAux b fuel (n / b) + 1 else 0

def nlog (b n : Nat) : Nat := nlogAux b n n

/-- `2 ^ e` as a rational, for an integer exponent `e`, computed with
`Nat.pow` (so that concrete instances evaluate fast). -/
def qpow2 (e : Int) : ℚ :=
  if 0 ≤ e then mkRat (Int.ofNat (2 ^ e.toNat)) 1 else mkRat 1 (2 ^ (-e).toNat)

/-- `10 ^ e` as a rational, for an integer exponent `e`. -/
def qpow10 (e : Int) : ℚ :=
  if 0 ≤ e then mkRat (Int.ofNat (10 ^ e.toNat)) 1 else mkRat 1 (10 ^ (-e).toNat)

/-- Decide `2 ^ e ≤ q` for a positive rational `q` and an integer `e`,
using only integer arithmetic. -/
def le2pow (e : Int) (q : ℚ) : Bool :=
  if 0 ≤ e then (q.den : Int) * 2 ^ e.toNat ≤ q.num
  else (q.den : Int) ≤ q.num * 2 ^ (-e).toNat

/-- Floor of the base-2 logarithm of a positive rational: the unique `e`
with `2 ^ e ≤ q < 2 ^ (e + 1)`. -/
def qlog2 (q : ℚ) : Int :=
  let L : Int := (nlog 2 q.num.toNat : Int) - (nlog 2 q.den : Int)
  if le2pow (L + 1) q then L + 1
  else if le2pow L q then L
  else L - 1

/-- Decide `10 ^ e ≤ q` for a positive rational `q`. -/
def le10pow (e : Int) (q : ℚ) : Bool :=
  if 0 ≤ e then (q.den : Int) * 10 ^ e.toNat ≤ q.num
  else (q.den : Int) ≤ q.num * 10 ^ (-e).toNat

/-- Floor of the base-10 logarithm of a positive rational. -/
def qlog10 (q : ℚ) : Int :=
  let L : Int := (nlog 10 q.num.toNat : Int) - (nlog 10 q.den : Int)
  if le10pow (L + 1) q then L + 1
  else if le10pow L q then L
  else L - 1

/-- Round a rational to the nearest integer, ties to even. -/
def roundHalfEvenQ (q : ℚ) : Int :=
  let k := ⌊q⌋
  let r := q - (k : ℚ)
  if r < mkRat 1 2 then k
  else if mkRat 1 2 < r then k + 1
  else if k % 2 = 0 then k else k + 1

/-- An IEEE-754 binary format: `prec` mantissa bits (including the
implicit bit), minimal scale exponent `emin`, maximal scale exponent
`emax` (so the smallest positive value is `2 ^ emin` and overflow to
infinity happens at `2 ^ (emax + prec)`). -/
structure FloatFmt where
  prec : Nat
  emin : Int
  emax : Int

/-- binary64: 53-bit mantissa, subnormal scale down to `2 ^ (-1074)`,
overflow at `2 ^ 1024`. -/
def fmt64 : FloatFmt := ⟨53, -1074, 971⟩

/-- binary32: 24-bit mantissa, subnormal scale down to `2 ^ (-149)`,
overflow at `2 ^ 128`. -/
def fmt32 : FloatFmt := ⟨24, -149, 104⟩

/-- Round a rational to the nearest value of the given IEEE format
(round to nearest, ties to even; overflow to the signed infinity). -/
def roundFloat (fp : FloatFmt) (q : ℚ) : GoFloat :=
  if q = 0 then .finite 0
  else
    let a := |q|
    let e := qlog2 a
    let p := max (e - ((fp.prec : Int) - 1)) fp.emin
    let m := roundHalfEvenQ (a * qpow2 (-p))
    let v := (m : ℚ) * qpow2 p
    if qpow2 (fp.emax + (fp.prec : Int)) ≤ v then
      (if q < 0 then .neginf else .inf)
    else
      .finite (if q < 0 then -v else v)

/-- Truncation of a rational toward zero (the rounding used by Go's
float-to-integer conversions). -/
def qtrunc (q : ℚ) : Int :=
  if 0 ≤ q then ⌊q⌋ else -⌊-q⌋

/-- Go's `int64(f)` conversion for a `float64` operand, with the amd64
behaviour on the cases the language spec leaves implementation-defined
(out-of-range values, infinities and NaN all yield `math.MinInt64`). -/
def GoFloat.toInt64 : GoFloat → Int
  | .finite q =>
      let t := qtrunc q
      if t < -(2 ^ 63) ∨ (2 : Int) ^ 63 ≤ t then -(2 ^ 63) else t
  | .inf => -(2 ^ 63)
  | .neginf => -(2 ^ 63)
  | .nan => -(2 ^ 63)

/-- Go's `float64(n)` conversion from `int64`. -/
def ofInt64 (n : Int) : GoFloat := roundFloat fmt64 (n : ℚ)

/-- Go's `float64(n)` conversion from `uint64`. -/
def ofUint64 (n : Nat) : GoFloat := roundFloat fmt64 (n : ℚ)

/-- The IEEE subtraction `f - 2^63` on `float64` (used by the amd64
lowering of `uint64(f)`); exact difference, then rounding. -/
def GoFloat.subPow63 : GoFloat → GoFloat
  | .finite q => roundFloat fmt64 (q - qpow2 63)
  | s => s

/-- Go's `uint64(f)` conversion for a `float64` operand, following the
amd64 lowering: values below `2^63` go through `int64`, larger values
are reduced by `2^63` first; the result is reduced mod `2^64`. -/
def GoFloat.toUint64 (f : GoFloat) : Nat :=
  let below : Bool := match f with
    | .finite q => decide (q < qpow2 63)
    | .neginf => true
    | _ => false
  if below then ((f.toInt64) % (2 ^ 64 : Int)).toNat
  else (((f.subPow63).toInt64 + 2 ^ 63) % (2 ^ 64 : Int)).toNat

/-- The Go `==` comparison on `float64` (IEEE equality: NaN is not equal
to anything, including itself). -/
def GoFloat.goEq : GoFloat → GoFloat → Bool
  | .nan, _ => false
  | _, .nan => false
  | .finite a, .finite b => a = b
  | .inf, .inf => true
  | .neginf, .neginf => true
  | _, _ => false

/-! ## Shortest-round-trip decimal formatting

An executable model of `strconv.FormatFloat(v, 'g', -1, 32)`: the value
is first rounded to binary32, then the shortest decimal string that
reads back (round to nearest, ties to even) as the same binary32 value
is produced, rendered in `%e` or `%f` style exactly as Go's `'g'` verb
with shortest precision chooses (`%e` when the decimal exponent is
below -4 or at least 6). -/

/-- Try to represent the positive value `a` (a binary32 value) by an
`n`-significant-digit decimal lying in its rounding interval
`(lower, upper)` (inclusive iff `incl`).  Returns the decimal as
`(d, k)` with value `d * 10 ^ k`. -/
def tryDigits (a lower upper : ℚ) (incl : Bool) (n : Nat) : Option (Int × Int) :=
  let k : Int := qlog10 a - (n : Int) + 1
  let base : ℚ := qpow10 k
  let d0 : Int := ⌊a * qpow10 (-k)⌋
  let inIv : Int → Bool := fun d =>
    let x : ℚ := (d : ℚ) * base
    if incl then decide (lower ≤ x ∧ x ≤ upper) else decide (lower < x ∧ x < upper)
  let dist : Int → ℚ := fun d => |(d : ℚ) * base - a|
  match inIv d0, inIv (d0 + 1) with
  | true, true =>
      if dist d0 < dist (d0 + 1) then some (d0, k)
      else if dist (d0 + 1) < dist d0 then some (d0 + 1, k)
      else if d0 % 2 = 0 then some (d0, k) else some (d0 + 1, k)
  | true, false => some (d0, k)
  | false, true => some (d0 + 1, k)
  | false, false => none

/-- Find the shortest in-interval decimal, trying 1 to 12 significant
digits (9 suffice for binary32). -/
def pickShortest (a lower upper : ℚ) (incl : Bool) : Int × Int :=
  go 12 1
where
  go : Nat → Nat → Int × Int
    | 0, _ => (roundHalfEvenQ a, 0)
    | fuel + 1, n =>
      match tryDigits a lower upper incl n with
      | some dk => dk
      | none => go fuel (n + 1)

/-- Strip trailing zero digits from `(d, k)`, keeping the value
`d * 10 ^ k`. -/
def stripZeros : Nat → Int × Int → Int × Int
  | 0, dk => dk
  | fuel + 1, (d, k) =>
      if d ≠ 0 ∧ d % 10 = 0 then stripZeros fuel (d / 10, k + 1) else (d, k)

/-- Decimal digit characters of a nonnegative integer, most significant
first (fuel-driven so that it reduces definitionally). -/
def natDigitsAux : Nat → Nat → List Char → List Char
  | 0, _, acc => acc
  | fuel + 1, n, acc =>
      let c := Char.ofNat (48 + n % 10)
      if n / 10 = 0 then c :: acc else natDigitsAux fuel (n / 10) (c :: acc)

def natDigits (n : Nat) : List Char := natDigitsAux (n + 1) n []

/-- A list of `n` zero characters. -/
def zeroChars : Nat → List Char
  | 0 => []
  | n + 1 => '0' :: zeroChars n

/-- Go's `%e` rendering for the `'g'` verb: `d.ddd` followed by
`e±XX` with a sign and at least two exponent digits. -/
def fmtE (ds : List Char) (exp : Int) : List Char :=
  let mant := match ds with
    | [] => ['0']
    | c :: rest => c :: (if rest.isEmpty then [] else '.' :: rest)
  let en := exp.natAbs
  let eds := natDigits en
  let eds := if eds.length < 2 then '0' :: eds else eds
  mant ++ ('e' :: (if exp < 0 then '-' else '+') :: eds)

/-- Go's `%f` rendering for the `'g'` verb, for digits `ds` with the
decimal point after position `dp`. -/
def fmtF (ds : List Char) (dp : Int) : List Char :=
  if dp ≤ 0 then '0' :: '.' :: (zeroChars (-dp).toNat ++ ds)
  else if (ds.length : Int) ≤ dp then ds ++ zeroChars (dp - ds.length).toNat
  else ds.take dp.toNat ++ ('.' :: ds.drop dp.toNat)

/-- Render the decimal `d * 10 ^ k` (with `d > 0` holding no trailing
zeros) the way Go's `'g'` verb with shortest precision does. -/
def fmtG (neg : Bool) (d : Int) (k : Int) : String :=
  let ds := natDigits d.toNat
  let dp : Int := (ds.length : Int) + k
  let exp : Int := dp - 1
  let body := if exp < -4 ∨ 6 ≤ exp then fmtE ds exp else fmtF ds dp
  String.mk (if neg then '-' :: body else body)

/-- Shortest decimal rendering of a nonzero binary32 value `v`. -/
def fmtShortest32 (v : ℚ) : String :=
  let neg := v < 0
  let a := |v|
  let e := qlog2 a
  let p : Int := max (e - 23) (-149)
  let m : Int := roundHalfEvenQ (a * qpow2 (-p))
  let upper : ℚ := a + qpow2 (p - 1)
  let lower : ℚ :=
    if m = 8388608 ∧ (-149 : Int) < p then a - qpow2 (p - 2)
    else a - qpow2 (p - 1)
  let incl : Bool := m % 2 = 0
  let dk := stripZeros 12 (pickShortest a lower upper incl)
  fmtG neg dk.1 dk.2

/-- Model of Go's `strconv.FormatFloat(v, 'g', -1, 32)` on a `float64`
operand: round to binary32, then shortest-round-trip decimal. -/
def formatFloatG32 (f : GoFloat) : String :=
  match f with
  | .inf => "+Inf"
  | .neginf => "-Inf"
  | .nan => "NaN"
  | .finite q =>
    match roundFloat fmt32 q with
    | .inf => "+Inf"
    | .neginf => "-Inf"
    | .nan => "NaN"
    | .finite v => if v = 0 then "0" else fmtShortest32 v

/-! ## The YAML-side value tree

`YValue` models the generic `interface{}` tree produced by the YAML
parser (`yaml.go` decodes into `interface{}` and then switches on
`map[interface{}]interface{}`, `[]interface{}`, and the scalar types
`string`, `int`, `int64`, `uint64`, `float64`, `bool`, nil).  Mappings
are modelled as ordered association lists (Go map iteration order is
unspecified; no property below depends on it).  The mutually inductive
list types keep every function structurally recursive, hence
definitionally computable. -/

mutual
inductive YValue where
  | vnull
  | vbool (b : Bool)
  | vint (n : Int)
  | vint64 (n : Int)
  | vuint64 (n : Nat)
  | vfloat (f : GoFloat)
  | vstr (s : String)
  | vseq (xs : YList)
  | vmap (es : YEntries)

inductive YList where
  | nil
  | cons (hd : YValue) (tl : YList)

inductive YEntries where
  | nil
  | cons (k : YValue) (v : YValue) (tl : YEntries)
end

deriving instance DecidableEq for YValue
deriving instance Repr for YValue

/-! ## The JSON-side value tree

`JValue` models the JSON-compatible `interface{}` tree produced by
`convertToJSONableObject`: the same scalars, but every object key is a
string (`map[string]interface{}` in the source, again modelled as an
ordered association list). -/

mutual
inductive JValue where
  | jnull
  | jbool (b : Bool)
  | jint (n : Int)
  | jint64 (n : Int)
  | juint64 (n : Nat)
  | jfloat (f : GoFloat)
  | jstr (s : String)
  | jarr (xs : JList)
  | jobj (es : JEntries)

inductive JList where
  | nil
  | cons (hd : JValue) (tl : JList)

inductive JEntries where
  | nil
  | cons (k : String) (v : JValue) (tl : JEntries)
end

deriving instance DecidableEq for JValue
deriving instance Repr for JValue

/-! ## Destination type descriptors

`JTarget` models the (already `indirect`ed) `reflect.Value` that
`convertToJSONableObject` receives as `jsonTarget`: all the source ever
asks of it is its `Kind` (String / Struct / Map / Slice / other), its
JSON field list when it is a struct, and its element type when it is a
map or slice.  `jtUnmarshaler` marks a destination whose type has a
JSON or Text unmarshaler, which the source's call to `indirect`
(`fields.go`, not part of the conversion core) detects, causing
`jsonTarget` to be cleared. -/

inductive JTarget where
  | jtString
  | jtStruct (fields : List (String × JTarget))
  | jtMap (elem : JTarget)
  | jtSlice (elem : JTarget)
  | jtOther
  | jtUnmarshaler

deriving instance DecidableEq for Except

/-- Modelled from the spec: the destination-record field-metadata
resolver (the `fields.go` helper `foldFunc`/`equalFold`, an external
collaborator of the conversion core taken from `encoding/json`) supplies
per-field case-insensitive name equality, used by the source's
"Do case-insensitive comparison" fallback; modelled as ASCII case
folding, which is what the helper computes on ASCII field names. -/
def asciiToLower (c : Char) : Char :=
  if 'A' ≤ c ∧ c ≤ 'Z' then Char.ofNat (c.toNat + 32) else c

def equalFold (a b : String) : Bool :=
  a.data.map asciiToLower = b.data.map asciiToLower

/-- The loop body of the field lookup (`yaml.go` lines 294-304), with
`f` the field found so far: an exact name match breaks out of the loop
at once; a case-insensitive match is recorded only when `f` is still
nil, and the scan continues. -/
def resolveFieldLoop (keyString : String) :
    List (String × JTarget) → Option (String × JTarget) → Option (String × JTarget)
  | [], f => f
  | ff :: rest, f =>
      if ff.1 = keyString then some ff
      else if f.isNone ∧ equalFold ff.1 keyString then
        resolveFieldLoop keyString rest (some ff)
      else resolveFieldLoop keyString rest f

/-- Embeds the field-lookup of `convertToJSONableObject` (`yaml.go`
lines 292-304): scan the cached fields in order; an exact name match
returns immediately; otherwise the first case-insensitive match is
remembered and returned only if no later exact match occurs. -/
def resolveFieldGo (fields : List (String × JTarget)) (keyString : String) :
    Option (String × JTarget) :=
  resolveFieldLoop keyString fields none

/-- Conversion-pipeline errors.  `unsupportedKeyType` is the only error
`convertToJSONableObject` itself produces (`yaml.go` line 278);
`duplicateKey` models the strict YAML parser's fatal error;
`unknownField` and `notAnObject` model the JSON record decoder's
errors. -/
inductive ConvErr where
  | unsupportedKeyType (k : YValue)
  | duplicateKey
  | unknownField (k : String)
  | notAnObject
deriving DecidableEq, Repr

/-- Embeds the key-normalization switch of `convertToJSONableObject`
(`yaml.go` lines 246-280): string keys pass through; `int`/`int64` keys
become their decimal representation (`strconv.Itoa` /
`strconv.FormatInt`); `float64` keys are formatted with
`strconv.FormatFloat(k, 'g', -1, 32)` and the results `+Inf`, `-Inf`,
`NaN` are substituted by `.inf`, `-.inf`, `.nan`; `bool` keys become
`true`/`false`; every other key kind (including `nil` and `uint64`,
which has no case in the switch) hits the `default` arm and is a fatal
unsupported-key-type error. -/
def resolveKeyString : YValue → Except ConvErr String
  | .vstr s => .ok s
  | .vint n => .ok (Int.repr n)
  | .vint64 n => .ok (Int.repr n)
  | .vfloat f =>
      let s := formatFloatG32 f
      let s := if s = "+Inf" then ".inf"
        else if s = "-Inf" then "-.inf"
        else if s = "NaN" then ".nan"
        else s
      .ok s
  | .vbool b => .ok (if b then "true" else "false")
  | k => .error (.unsupportedKeyType k)

/-- Assignment `strMap[keyString] = v` on the ordered association-list
model of Go's `map[string]interface{}`. -/
def assocSet (m : JEntries) (k : String) (v : JValue) : JEntries :=
  match m with
  | .nil => .cons k v .nil
  | .cons k0 v0 rest =>
      if k0 = k then .cons k0 v rest else .cons k0 v0 (assocSet rest k v)

/-- The scalar constructors of the YAML tree mapped to the JSON tree
unchanged (the `return yamlObj, nil` of the source's default arm).
Compound values never reach this function - they are handled by the
mapping/sequence arms of `convertToJSONableObject`. -/
def jOfScalar : YValue → JValue
  | .vnull => .jnull
  | .vbool b => .jbool b
  | .vint n => .jint n
  | .vint64 n => .jint64 n
  | .vuint64 n => .juint64 n
  | .vfloat f => .jfloat f
  | .vstr s => .jstr s
  | .vseq _ => .jnull
  | .vmap _ => .jnull

/-- Embeds the default arm of `convertToJSONableObject` (`yaml.go`
lines 360-388): when the destination kind is `String` and the value is
`int`, `int64`, `float64`, `uint64` or `bool`, format it as a string
(floats with `strconv.FormatFloat(v, 'g', -1, 32)`, exactly as keys);
any other value, and every value when the destination is not
string-kinded, passes through unchanged. -/
def convertScalar (v : YValue) (jsonTarget : Option JTarget) : JValue :=
  match jsonTarget with
  | some .jtString =>
      let s : String := match v with
        | .vint n => Int.repr n
        | .vint64 n => Int.repr n
        | .vfloat f => formatFloatG32 f
        | .vuint64 n => Nat.repr n
        | .vbool b => if b then "true" else "false"
        | _ => ""
      if s.length > 0 then .jstr s else jOfScalar v
  | _ => jOfScalar v

/-- The `indirect` preamble of `convertToJSONableObject` (`yaml.go`
lines 219-228): a destination with a JSON or Text unmarshaler clears
`jsonTarget`. -/
def indirectTarget : Option JTarget → Option JTarget
  | some .jtUnmarshaler => none
  | t => t

/-- The per-entry destination selection of the mapping arm (`yaml.go`
lines 287-325): for a struct destination, the matched field's value
(or nothing when no field matches); for a map destination, its element
type; nothing otherwise. -/
def subTargetFor (jsonTarget : Option JTarget) (keyString : String) : Option JTarget :=
  match jsonTarget with
  | some (.jtStruct fields) =>
      match resolveFieldGo fields keyString with
      | some f => some f.2
      | none => none
  | some (.jtMap elem) => some elem
  | _ => none

/-- The sequence arm's element destination (`yaml.go` lines 340-349):
the slice's element type when the destination is a slice, nothing
otherwise. -/
def sliceElemTarget (jsonTarget : Option JTarget) : Option JTarget :=
  match jsonTarget with
  | some (.jtSlice elem) => some elem
  | _ => none

mutual
/-- Embeds `convertToJSONableObject` (`yaml.go` lines 212-389). -/
def convertToJSONableObject (yamlObj : YValue) (jsonTarget0 : Option JTarget) :
    Except ConvErr JValue :=
  let jsonTarget := indirectTarget jsonTarget0
  match yamlObj with
  | .vmap es =>
      match convertMapEntries es jsonTarget .nil with
      | .error e => .error e
      | .ok strMap => .ok (.jobj strMap)
  | .vseq xs =>
      match convertSeqElems xs (sliceElemTarget jsonTarget) with
      | .error e => .error e
      | .ok arr => .ok (.jarr arr)
  | v => .ok (convertScalar v jsonTarget)

/-- The per-entry loop of the mapping arm (`yaml.go` lines 244-330):
normalize the key; recurse into the value with the destination selected
by `subTargetFor`; store the result under the normalized key. -/
def convertMapEntries (es : YEntries) (jsonTarget : Option JTarget)
    (strMap : JEntries) : Except ConvErr JEntries :=
  match es with
  | .nil => .ok strMap
  | .cons k v rest =>
      match resolveKeyString k with
      | .error e => .error e
      | .ok keyString =>
          match convertToJSONableObject v (subTargetFor jsonTarget keyString) with
          | .error e => .error e
          | .ok jv => convertMapEntries rest jsonTarget (assocSet strMap keyString jv)

/-- The sequence arm's element loop (`yaml.go` lines 351-358). -/
def convertSeqElems (xs : YList) (elemTarget : Option JTarget) :
    Except ConvErr JList :=
  match xs with
  | .nil => .ok .nil
  | .cons hd tl =>
      match convertToJSONableObject hd elemTarget with
      | .error e => .error e
      | .ok jv =>
          match convertSeqElems tl elemTarget with
          | .error e => .error e
          | .ok rest => .ok (.cons jv rest)
end

/-! ## The external YAML parser collaborator

`yamlToJSON` obtains its `interface{}` tree from `dec.Decode` on a
`gopkg.in/yaml.v2` decoder, optionally switched to strict mode by
`SetStrict(true)`.  The parser is an external collaborator; only its
contract matters here.  We model its duplicate-key behaviour on a raw
tree in which a mapping may still carry duplicate keys. -/

def assocSetY (m : YEntries) (k : YValue) (v : YValue) : YEntries :=
  match m with
  | .nil => .cons k v .nil
  | .cons k0 v0 rest =>
      if k0 = k then .cons k0 v rest else .cons k0 v0 (assocSetY rest k v)

/-- Does the key `k` occur in the entry list? -/
def entriesKeyMem (es : YEntries) (k : YValue) : Bool :=
  match es with
  | .nil => false
  | .cons k0 _ rest => k0 = k || entriesKeyMem rest k

/-- Two case-sensitive-identical keys in one mapping level. -/
def entriesHaveDup : YEntries → Bool
  | .nil => false
  | .cons k _ rest => entriesKeyMem rest k || entriesHaveDup rest

mutual
/-- Does the raw tree contain a mapping with two identical keys at one
level, anywhere? -/
def hasDupKeys : YValue → Bool
  | .vmap es => entriesHaveDup es || entriesDup es
  | .vseq xs => listDup xs
  | _ => false

def listDup : YList → Bool
  | .nil => false
  | .cons hd tl => hasDupKeys hd || listDup tl

def entriesDup : YEntries → Bool
  | .nil => false
  | .cons _ v rest => hasDupKeys v || entriesDup rest
end

mutual
/-- Modelled from the spec: the external YAML parser collaborator
(`parse(bytes, strict) -> ValueTree | FatalError`, spec section 6),
with the duplicate-key policy corrected to the attested behaviour of
the pinned `gopkg.in/yaml.v2` v2.4.0 rather than the spec's section
4.4 words: two case-sensitive-identical keys in one mapping level are
a fatal duplicate-key error in strict AND permissive mode alike
(`src/yaml_test.go` `TestUnmarshalFails` expects plain `Unmarshal` of
`a: true\na: false` to fail, and the duplicate-field test expects both
`YAMLToJSON` and `YAMLToJSONStrict` to fail).  The `strict` flag is
still threaded through, as the entry points toggle it via
`SetStrict`. -/
def parseResolve (strict : Bool) : YValue → Except ConvErr YValue
  | .vmap es =>
      if entriesHaveDup es then .error .duplicateKey
      else
        match parseEntries strict es .nil with
        | .error e => .error e
        | .ok es2 => .ok (.vmap es2)
  | .vseq xs =>
      match parseList strict xs with
      | .error e => .error e
      | .ok xs2 => .ok (.vseq xs2)
  | v => .ok v

def parseList (strict : Bool) : YList → Except ConvErr YList
  | .nil => .ok .nil
  | .cons hd tl =>
      match parseResolve strict hd with
      | .error e => .error e
      | .ok h2 =>
          match parseList strict tl with
          | .error e => .error e
          | .ok t2 => .ok (.cons h2 t2)

def parseEntries (strict : Bool) : YEntries → YEntries → Except ConvErr YEntries
  | .nil, acc => .ok acc
  | .cons k v rest, acc =>
      match parseResolve strict v with
      | .error e => .error e
      | .ok v2 => parseEntries strict rest (assocSetY acc k v2)
end

mutual
/-- The value a permissive parse produces: the same tree with each
duplicated key collapsed to its last occurrence. -/
def lastWinsV : YValue → YValue
  | .vmap es => .vmap (lastWinsEntries es .nil)
  | .vseq xs => .vseq (lastWinsList xs)
  | v => v

def lastWinsList : YList → YList
  | .nil => .nil
  | .cons hd tl => .cons (lastWinsV hd) (lastWinsList tl)

def lastWinsEntries : YEntries → YEntries → YEntries
  | .nil, acc => acc
  | .cons k v rest, acc => lastWinsEntries rest (assocSetY acc k (lastWinsV v))
end

/-! ## The external JSON record decoder collaborator

`Decoder.Decode` streams the converted JSON through `jsonUnmarshal`,
i.e. an `encoding/json` decoder, to which `UnmarshalStrict` passes the
`DisallowUnknownFields` option (`yaml.go` lines 119-126).  We model the
decoder's documented behaviour for a struct destination. -/

/-- Modelled from the spec: the external JSON record decoder
collaborator (`decode(jsonBytes, destinationPointer,
disallowUnknownFields)`, spec section 6).  `encoding/json` matches an
object key to a struct field preferring an exact name match but
accepting a case-insensitive one (the same precedence as
`resolveFieldGo`); a key matching no field is silently dropped, unless
`disallowUnknownFields` is set, in which case it is an unknown-field
error.  The decode result is the ordered list of field assignments. -/
def jsonDecodeStruct (fields : List (String × JTarget)) (disallowUnknown : Bool) :
    JEntries → Except ConvErr (List (String × JValue))
  | .nil => .ok []
  | .cons k v rest =>
      match resolveFieldGo fields k with
      | some f =>
          match jsonDecodeStruct fields disallowUnknown rest with
          | .error e => .error e
          | .ok as => .ok ((f.1, v) :: as)
      | none =>
          if disallowUnknown then .error (.unknownField k)
          else jsonDecodeStruct fields disallowUnknown rest

/-- Is some key of the object unknown to the record (resolves to no
field)? -/
def hasUnknownKey (fields : List (String × JTarget)) : JEntries → Bool
  | .nil => false
  | .cons k _ rest => (resolveFieldGo fields k).isNone || hasUnknownKey fields rest

/-! ## Entry-point pipelines -/

/-- Embeds `yamlToJSON` (`yaml.go` lines 192-210) with its two
collaborators modelled: the YAML decode step is `parseResolve` on the
raw tree (strict mode per `SetStrict`), and the final
`json.NewEncoder(tgt).Encode` is the identity on the JSON-compatible
value (byte serialization is abstracted away).  `YAMLToJSON` runs this
with `strict = false` and no decode target (lines 173-179),
`YAMLToJSONStrict` with `strict = true` (lines 181-190). -/
def yamlToJSON (strict : Bool) (raw : YValue) (jsonTarget : Option JTarget) :
    Except ConvErr JValue :=
  match parseResolve strict raw with
  | .error e => .error e
  | .ok yamlObj => convertToJSONableObject yamlObj jsonTarget

/-- Embeds `Unmarshal` (`yaml.go` lines 111-117) and `UnmarshalStrict`
(lines 119-126) for a struct destination: the strict entry point both
switches the YAML decoder to strict mode (`dec.SetStrict(true)`) and
appends the `DisallowUnknownFields` option for the JSON decoder; the
permissive one does neither.  The final JSON decode step is the
modelled record decoder. -/
def unmarshalGo (strict : Bool) (raw : YValue) (fields : List (String × JTarget)) :
    Except ConvErr (List (String × JValue)) :=
  match yamlToJSON strict raw (some (.jtStruct fields)) with
  | .error e => .error e
  | .ok (.jobj entries) => jsonDecodeStruct fields strict entries
  | .ok _ => .error .notAnObject

/-- `Unmarshal` (`yaml.go` lines 111-117): permissive decoding. -/
def Unmarshal (raw : YValue) (fields : List (String × JTarget)) :
    Except ConvErr (List (String × JValue)) :=
  unmarshalGo false raw fields

/-- `UnmarshalStrict` (`yaml.go` lines 119-126): strict parsing plus
`DisallowUnknownFields`. -/
def UnmarshalStrict (raw : YValue) (fields : List (String × JTarget)) :
    Except ConvErr (List (String × JValue)) :=
  unmarshalGo true raw fields

/-- `YAMLToJSON` (`yaml.go` lines 173-179). -/
def YAMLToJSON (raw : YValue) : Except ConvErr JValue :=
  yamlToJSON false raw none

/-- `YAMLToJSONStrict` (`yaml.go` lines 181-190). -/
def YAMLToJSONStrict (raw : YValue) : Except ConvErr JValue :=
  yamlToJSON true raw none

/-- Modelled from the spec: `JSONToYAML` (`yaml.go` lines 143-159)
parses JSON bytes with the YAML parser and re-emits the tree with the
YAML emitter; both are external collaborators whose contracts (spec
section 6) make the byte-level round trip the identity on the value
tree, so at tree level the function is the identity. -/
def jsonToYAMLTree (tree : YValue) : YValue := tree

/-! ## The reverse direction: `JSONObjectToYAMLObject` -/

/-- Go's `int(j)` conversion from `int64`; Go `int` is modelled as
64-bit wide (as on all platforms this package targets in practice), so
the conversion is the identity. -/
def goIntOfInt64 (n : Int) : Int := n

mutual
/-- Embeds `jsonToYAMLValue` (`yaml.go` lines 415-450): float64 values
are down-cast to `int` / `int64` when `j == float64(int64(j))`, else to
`uint64` when `j == float64(uint64(j))`, else kept; `int64` values are
down-cast to `int` when lossless; everything else is unchanged. -/
def jsonToYAMLValue : JValue → JValue
  | .jobj es => .jobj (jsonToYAMLEntries es)
  | .jarr xs => .jarr (jsonToYAMLList xs)
  | .jfloat f =>
      let i64 := f.toInt64
      if f.goEq (ofInt64 i64) then
        let i := goIntOfInt64 i64
        if i64 = i then .jint i else .jint64 i64
      else
        let u64 := f.toUint64
        if f.goEq (ofUint64 u64) then .juint64 u64 else .jfloat f
  | .jint64 n =>
      let i := goIntOfInt64 n
      if n = i then .jint i else .jint64 n
  | v => v

/-- Embeds `JSONObjectToYAMLObject` (`yaml.go` lines 404-413): each
entry's value is converted by `jsonToYAMLValue`; keys are kept. -/
def jsonToYAMLEntries : JEntries → JEntries
  | .nil => .nil
  | .cons k v rest => .cons k (jsonToYAMLValue v) (jsonToYAMLEntries rest)

def jsonToYAMLList : JList → JList
  | .nil => .nil
  | .cons hd tl => .cons (jsonToYAMLValue hd) (jsonToYAMLList tl)
end

/-! ## The streaming bridge's error combination -/

/-- Embeds the error handling of `Encoder.Encode` (`yaml.go` lines
39-53): after both the JSON-serialization stage (the producer
goroutine) and the YAML-decode stage have delivered their outcomes,
the JSON error is reported first, then the YAML error. -/
def encodeCombine (jsonErr yamlErr : Option String) : Option String :=
  match jsonErr with
  | some e => some ("error marshalling into JSON: " ++ e)
  | none =>
      match yamlErr with
      | some e => some ("error converting JSON to YAML: " ++ e)
      | none => none

/-- Embeds the error handling of `Decoder.Decode` (`yaml.go` lines
84-97): the YAML-to-JSON conversion error (the producer goroutine,
joined through `errChan`) is reported first, then the JSON-unmarshal
error. -/
def decodeCombine (yamlErr jsonErr : Option String) : Option String :=
  match yamlErr with
  | some e => some ("error converting YAML to JSON: " ++ e)
  | none =>
      match jsonErr with
      | some e => some ("error unmarshalling JSON: " ++ e)
      | none => none

/-! ## Supporting lemmas: decimal strings are nonempty

The string coercion of the source's default arm only replaces the value
when the formatted string is nonempty (`len(s) > 0`, `yaml.go` line
383); these lemmas show the formatters never produce an empty string. -/

theorem toDigitsCore_len (b : Nat) :
    ∀ (fuel n : Nat) (ds : List Char), ds.length ≤ (Nat.toDigitsCore b fuel n ds).length
  | 0, _, _ => le_refl _
  | fuel + 1, n, ds => by
      simp only [Nat.toDigitsCore]
      split
      · simp
      · exact le_trans (by simp) (toDigitsCore_len b fuel (n / b) (_ :: ds))

theorem natRepr_length_pos (n : Nat) : 0 < (Nat.repr n).length := by
  show 0 < (Nat.toDigits 10 n).asString.length
  have h : 0 < (Nat.toDigits 10 n).length := by
    simp only [Nat.toDigits, Nat.toDigitsCore]
    split
    · simp
    · exact lt_of_lt_of_le (by simp) (toDigitsCore_len 10 n (n / 10) _)
  simpa [List.asString] using h

theorem intRepr_length_pos (n : Int) : 0 < (Int.repr n).length := by
  cases n with
  | ofNat m => exact natRepr_length_pos m
  | negSucc m =>
      show 0 < ("-" ++ Nat.repr (m + 1)).length
      rw [String.length_append]
      exact Nat.lt_of_lt_of_le (natRepr_length_pos (m + 1)) (Nat.le_add_left _ _)

theorem natDigitsAux_len :
    ∀ (fuel n : Nat) (acc : List Char), acc.length ≤ (natDigitsAux fuel n acc).length
  | 0, _, _ => le_refl _
  | fuel + 1, n, acc => by
      simp only [natDigitsAux]
      split
      · simp
      · exact le_trans (by simp) (natDigitsAux_len fuel (n / 10) (_ :: acc))

theorem natDigits_length_pos (n : Nat) : 0 < (natDigits n).length := by
  simp only [natDigits, natDigitsAux]
  split
  · simp
  · exact lt_of_lt_of_le (by simp) (natDigitsAux_len n (n / 10) _)

theorem fmtE_length_pos (ds : List Char) (exp : Int) : 0 < (fmtE ds exp).length := by
  simp only [fmtE, List.length_append]
  have : 0 < (match ds with
      | [] => ['0']
      | c :: rest => c :: (if rest.isEmpty then [] else '.' :: rest)).length := by
    cases ds <;> simp
  omega

theorem fmtF_length_pos (ds : List Char) (dp : Int) (hds : 0 < ds.length) :
    0 < (fmtF ds dp).length := by
  simp only [fmtF]
  split
  · simp
  · split
    · simpa using Or.inl hds
    · simp

theorem fmtG_length_pos (neg : Bool) (d k : Int) : 0 < (fmtG neg d k).length := by
  simp only [fmtG, String.length_mk]
  split
  · simp only [List.length_cons]; omega
  · split
    · exact fmtE_length_pos _ _
    · exact fmtF_length_pos _ _ (natDigits_length_pos _)

theorem fmtShortest32_length_pos (v : ℚ) : 0 < (fmtShortest32 v).length := by
  simp only [fmtShortest32]
  exact fmtG_length_pos _ _ _

theorem formatFloatG32_length_pos (f : GoFloat) : 0 < (formatFloatG32 f).length := by
  cases f with
  | finite q =>
      simp only [formatFloatG32]
      rcases h : roundFloat fmt32 q with v | _ | _ | _ <;> simp only [h] <;> try decide
      split
      · decide
      · exact fmtShortest32_length_pos _
  | inf => decide
  | neginf => decide
  | nan => decide

/-! ## Claim C9: stream bridge error precedence -/

/-- C9: `Encoder.Encode` and `Decoder.Decode` combine the two stages'
outcomes after both have been delivered (the producer's via a closure
respectively the `errChan` join), and when both stages fail the
producer's (stage A's) error is the one reported: `Encode` prefers the
JSON-serialization error, `Decode` prefers the YAML-to-JSON conversion
error. -/
theorem c9_theorem : ∀ je ye : String,
    encodeCombine (some je) (some ye) = some ("error marshalling into JSON: " ++ je)
    ∧ decodeCombine (some ye) (some je) = some ("error converting YAML to JSON: " ++ ye)
    ∧ encodeCombine none none = none ∧ decodeCombine none none = none :=
  fun _ _ => ⟨rfl, rfl, rfl, rfl⟩

/-! ## Claim C10: non-numeric scalars are not coerced to string -/

/-- C10: a scalar that is neither numeric nor boolean passes through
`convertToJSONableObject` unchanged even when the destination is
string-typed; in particular a YAML null aimed at a string-typed field
stays null. -/
theorem c10_theorem :
    (∀ s : String, convertToJSONableObject (.vstr s) (some .jtString) = .ok (.jstr s))
    ∧ convertToJSONableObject .vnull (some .jtString) = .ok .jnull := by
  constructor
  · intro s
    simp [convertToJSONableObject, convertScalar, indirectTarget, jOfScalar]
  · decide

/-! ## Claim C1: the field lookup's case-insensitive fallback -/

theorem resolveFieldLoop_some (key : String) :
    ∀ (l : List (String × JTarget)) (f0 : String × JTarget),
      (l.find? (fun ff => ff.1 == key)).isNone = true →
      resolveFieldLoop key l (some f0) = some f0
  | [], _, _ => rfl
  | ff :: rest, f0, h => by
      cases hp : (ff.1 == key) with
      | true => simp [List.find?, hp] at h
      | false =>
          simp only [List.find?, hp] at h
          have hne : ¬ ff.1 = key := by simpa using hp
          simp only [resolveFieldLoop, if_neg hne, Option.isNone_some,
            Bool.false_eq_true, false_and, if_neg (fun hx => hx)]
          exact resolveFieldLoop_some key rest f0 h

theorem resolveFieldLoop_none (key : String) :
    ∀ l : List (String × JTarget),
      (l.find? (fun ff => ff.1 == key)).isNone = true →
      resolveFieldLoop key l none = l.find? (fun ff => equalFold ff.1 key)
  | [], _ => rfl
  | ff :: rest, h => by
      cases hp : (ff.1 == key) with
      | true => simp [List.find?, hp] at h
      | false =>
          simp only [List.find?, hp] at h
          have hne : ¬ ff.1 = key := by simpa using hp
          cases hf : equalFold ff.1 key with
          | true =>
              simp only [resolveFieldLoop, if_neg hne, Option.isNone_none, hf,
                true_and, if_pos trivial, List.find?]
              exact resolveFieldLoop_some key rest ff h
          | false =>
              simp only [resolveFieldLoop, if_neg hne, Option.isNone_none, hf,
                true_and, Bool.false_eq_true, if_neg (fun hx => hx), List.find?]
              exact resolveFieldLoop_none key rest h

/-- C1 counterexample: a key with no exact case-sensitive match among
the destination's field names does not pass through unresolved - the
lookup of `yaml.go` lines 292-304 resolves it to a case-insensitively
matching field (here key `ABC` resolves to field `abc`). -/
theorem c1_counterexample :
    (resolveFieldGo [("abc", JTarget.jtOther)] "ABC").map (fun f => f.1) = some "abc"
    ∧ (([("abc", JTarget.jtOther)] : List (String × JTarget)).find?
        (fun ff => ff.1 == "ABC")).isNone = true :=
  ⟨by decide, by decide⟩

/-- C1 (amended): when the normalized key has no exact case-sensitive
match among the destination's field names, the field lookup performs a
case-insensitive fallback of its own, resolving the key to the first
case-insensitively matching field; only when that also fails is the
key passed through with no resolved field. -/
theorem c1_theorem (fields : List (String × JTarget)) (key : String)
    (h : (fields.find? (fun ff => ff.1 == key)).isNone = true) :
    resolveFieldGo fields key = fields.find? (fun ff => equalFold ff.1 key) :=
  resolveFieldLoop_none key fields h

/-- C1 witness: the amended theorem applied at field list `[abc]` and
key `ABC`. -/
theorem c1_witness :
    ((([("abc", JTarget.jtOther)] : List (String × JTarget)).find?
        (fun ff => ff.1 == "ABC")).isNone = true)
    ∧ resolveFieldGo [("abc", JTarget.jtOther)] "ABC"
        = ([("abc", JTarget.jtOther)] : List (String × JTarget)).find?
            (fun ff => equalFold ff.1 "ABC") :=
  ⟨by decide, c1_theorem [("abc", JTarget.jtOther)] "ABC" (by decide)⟩

/-! ## Claim C4: key normalization -/

/-- C4 counterexample: a `uint64` key (which the YAML parser produces
for integer literals between 2^63 and 2^64-1) is not normalized to its
decimal representation - it hits the `default` arm of the key switch
(`yaml.go` line 277) and is a fatal unsupported-key-type error. -/
theorem c4_counterexample :
    resolveKeyString (.vuint64 18446744073709551615)
      = .error (.unsupportedKeyType (.vuint64 18446744073709551615)) := by decide

/-- C4 (amended): key normalization maps a string key to itself, an
`int`/`int64` key to its decimal representation, a bool key to
`true`/`false`, and a `float64` key to the emitter's
shortest-round-trip float32 form with the substitutions
`+Inf -> .inf`, `-Inf -> -.inf`, `NaN -> .nan` (so the float64 nearest
to 10^36 normalizes to `1e+36`); a `uint64` key, however, is a fatal
unsupported-key-type error, not a decimal string. -/
theorem c4_theorem :
    (∀ s, resolveKeyString (.vstr s) = .ok s)
    ∧ (∀ n : Int, resolveKeyString (.vint n) = .ok (Int.repr n))
    ∧ (∀ n : Int, resolveKeyString (.vint64 n) = .ok (Int.repr n))
    ∧ (∀ b, resolveKeyString (.vbool b) = .ok (if b then "true" else "false"))
    ∧ (∀ n : Nat, resolveKeyString (.vuint64 n) = .error (.unsupportedKeyType (.vuint64 n)))
    ∧ (∀ f, resolveKeyString (.vfloat f) =
        .ok (if formatFloatG32 f = "+Inf" then ".inf"
          else if formatFloatG32 f = "-Inf" then "-.inf"
          else if formatFloatG32 f = "NaN" then ".nan"
          else formatFloatG32 f))
    ∧ resolveKeyString (.vfloat .inf) = .ok ".inf"
    ∧ resolveKeyString (.vfloat .neginf) = .ok "-.inf"
    ∧ resolveKeyString (.vfloat .nan) = .ok ".nan"
    ∧ resolveKeyString (.vfloat (roundFloat fmt64 (qpow10 36))) = .ok "1e+36" := by
  refine ⟨fun s => rfl, fun n => rfl, fun n => rfl, fun b => rfl, fun n => rfl,
    fun f => rfl, by decide, by decide, by decide, ?_⟩
  with_unfolding_all decide

/-! ## Claim C2: numeric-to-string value coercion -/

/-- C2 counterexample: the `float64` value 16777217 (2^24+1, exactly
representable in a float64) aimed at a string-typed destination is
coerced to the string `1.6777216e+07` - the float32-width
shortest-round-trip form also used for keys, which denotes 16777216
and has lost the value's low bit, not a full-double-precision form. -/
theorem c2_counterexample :
    convertToJSONableObject (.vfloat (.finite 16777217)) (some .jtString)
      = .ok (.jstr "1.6777216e+07")
    ∧ resolveKeyString (.vfloat (.finite 16777217)) = .ok "1.6777216e+07"
    ∧ ((16777217 : ℚ) ≠ 16777216) := by
  refine ⟨?_, ?_, by decide⟩ <;> with_unfolding_all decide

/-- C2 (amended): with a string-typed destination descriptor an
`int64` scalar is coerced to its exact decimal string (the scalar
9007199254740993 = 2^53+1 yields exactly that digit string), and a
`float64` scalar is formatted with `strconv.FormatFloat(v, 'g', -1,
32)` - the same float32 shortest-round-trip rule used for keys, not
full double precision. -/
theorem c2_theorem :
    convertToJSONableObject (.vint64 9007199254740993) (some .jtString)
      = .ok (.jstr "9007199254740993")
    ∧ (∀ n : Int, convertToJSONableObject (.vint64 n) (some .jtString)
        = .ok (.jstr (Int.repr n)))
    ∧ (∀ f : GoFloat, convertToJSONableObject (.vfloat f) (some .jtString)
        = .ok (.jstr (formatFloatG32 f))) := by
  refine ⟨by decide, fun n => ?_, fun f => ?_⟩
  · simp only [convertToJSONableObject, indirectTarget, convertScalar,
      if_pos (intRepr_length_pos n)]
  · simp only [convertToJSONableObject, indirectTarget, convertScalar,
      if_pos (formatFloatG32_length_pos f)]

/-! ## Claim C6: unknown fields, permissive vs strict -/

/-- The document `{a: X, unknown: Y}`. -/
def unknownDoc : YValue :=
  .vmap (.cons (.vstr "a") (.vstr "X") (.cons (.vstr "unknown") (.vstr "Y") .nil))

/-- A record with only the field `a`. -/
def unknownFields : List (String × JTarget) := [("a", JTarget.jtString)]

/-- C6 counterexample: decoding `{a: X, unknown: Y}` into a record with
only field `a` succeeds silently in permissive mode, but the strict
entry point - which passes `DisallowUnknownFields` to the JSON decoder
(`yaml.go` line 123) - returns a fatal unknown-field error, not the
decoded value plus a non-fatal diagnostic. -/
theorem c6_counterexample :
    Unmarshal unknownDoc unknownFields = .ok [("a", .jstr "X")]
    ∧ UnmarshalStrict unknownDoc unknownFields = .error (.unknownField "unknown") :=
  ⟨by decide, by decide⟩

theorem jsonDecodeStruct_permissive_ok (fields : List (String × JTarget)) :
    ∀ es : JEntries, ∃ as, jsonDecodeStruct fields false es = .ok as
  | .nil => ⟨[], rfl⟩
  | .cons k v rest => by
      obtain ⟨as, has⟩ := jsonDecodeStruct_permissive_ok fields rest
      rcases hr : resolveFieldGo fields k with _ | f
      · exact ⟨as, by simp [jsonDecodeStruct, hr, has]⟩
      · exact ⟨(f.1, v) :: as, by simp [jsonDecodeStruct, hr, has]⟩

theorem jsonDecodeStruct_strict_err (fields : List (String × JTarget)) :
    ∀ es : JEntries, hasUnknownKey fields es = true →
      ∃ k, jsonDecodeStruct fields true es = .error (.unknownField k)
  | .nil => by intro h; simp [hasUnknownKey] at h
  | .cons k v rest => by
      intro h
      rcases hr : resolveFieldGo fields k with _ | f
      · exact ⟨k, by simp [jsonDecodeStruct, hr]⟩
      · simp only [hasUnknownKey, hr, Option.isNone_some, Bool.false_or] at h
        obtain ⟨k2, hk2⟩ := jsonDecodeStruct_strict_err fields rest h
        exact ⟨k2, by simp [jsonDecodeStruct, hr, hk2]⟩

theorem jsonDecodeStruct_known_eq (fields : List (String × JTarget)) :
    ∀ es : JEntries, hasUnknownKey fields es = false →
      jsonDecodeStruct fields true es = jsonDecodeStruct fields false es
  | .nil => by intro _; rfl
  | .cons k v rest => by
      intro h
      rcases hr : resolveFieldGo fields k with _ | f
      · simp [hasUnknownKey, hr] at h
      · simp only [hasUnknownKey, hr, Option.isNone_some, Bool.false_or] at h
        simp [jsonDecodeStruct, hr, jsonDecodeStruct_known_eq fields rest h]

/-- C6 (amended): permissive decode never fails on unknown keys and
silently drops each of them; strict decode (`DisallowUnknownFields`)
returns a fatal unknown-field error as soon as a key resolves to no
field, and agrees with permissive decode when every key is known. -/
theorem c6_theorem :
    (∀ (fields : List (String × JTarget)) (es : JEntries),
      ∃ as, jsonDecodeStruct fields false es = .ok as)
    ∧ (∀ (fields : List (String × JTarget)) (es : JEntries),
        hasUnknownKey fields es = true →
        ∃ k, jsonDecodeStruct fields true es = .error (.unknownField k))
    ∧ (∀ (fields : List (String × JTarget)) (es : JEntries),
        hasUnknownKey fields es = false →
        jsonDecodeStruct fields true es = jsonDecodeStruct fields false es)
    ∧ Unmarshal unknownDoc unknownFields = .ok [("a", .jstr "X")]
    ∧ UnmarshalStrict unknownDoc unknownFields = .error (.unknownField "unknown") :=
  ⟨jsonDecodeStruct_permissive_ok, jsonDecodeStruct_strict_err,
    jsonDecodeStruct_known_eq, by decide, by decide⟩

/-- C6 witness: the amended theorem applied to the object
`{a: X, unknown: Y}` and a record with only field `a`. -/
theorem c6_witness :
    hasUnknownKey unknownFields
      (.cons "a" (.jstr "X") (.cons "unknown" (.jstr "Y") .nil)) = true
    ∧ (∃ k, jsonDecodeStruct unknownFields true
        (.cons "a" (.jstr "X") (.cons "unknown" (.jstr "Y") .nil))
        = .error (.unknownField k)) :=
  ⟨by decide, c6_theorem.2.1 unknownFields
    (.cons "a" (.jstr "X") (.cons "unknown" (.jstr "Y") .nil)) (by decide)⟩

/-! ## Claim C8: unsupported key kinds abort the conversion -/

/-- The key kinds the claim calls offending: null, and the kinds other
than string/int/uint/float/bool (sequences and mappings). -/
def badKeyKind : YValue → Bool
  | .vnull => true
  | .vseq _ => true
  | .vmap _ => true
  | _ => false

mutual
/-- Does the tree contain, anywhere, a mapping entry whose key is of an
offending kind? -/
def hasBadKey : YValue → Bool
  | .vmap es => entriesBad es
  | .vseq xs => listBad xs
  | _ => false

def listBad : YList → Bool
  | .nil => false
  | .cons hd tl => hasBadKey hd || listBad tl

def entriesBad : YEntries → Bool
  | .nil => false
  | .cons k v rest => badKeyKind k || hasBadKey v || entriesBad rest
end

theorem badKeyKind_err (k : YValue) (h : badKeyKind k = true) :
    resolveKeyString k = .error (.unsupportedKeyType k) := by
  cases k <;> simp_all [badKeyKind, resolveKeyString]

mutual
theorem convert_err_shape : ∀ (y : YValue) (tgt : Option JTarget) (e : ConvErr),
    convertToJSONableObject y tgt = .error e → ∃ k, e = .unsupportedKeyType k
  | .vmap es, tgt, e => by
      intro h
      simp only [convertToJSONableObject] at h
      rcases hm : convertMapEntries es (indirectTarget tgt) .nil with e2 | ok
      · rw [hm] at h
        cases h
        exact convertEntries_err_shape es _ _ _ hm
      · rw [hm] at h; cases h
  | .vseq xs, tgt, e => by
      intro h
      simp only [convertToJSONableObject] at h
      rcases hm : convertSeqElems xs (sliceElemTarget (indirectTarget tgt)) with e2 | ok
      · rw [hm] at h
        cases h
        exact convertSeq_err_shape xs _ _ hm
      · rw [hm] at h; cases h
  | .vnull, tgt, e => by intro h; simp [convertToJSONableObject] at h
  | .vbool b, tgt, e => by intro h; simp [convertToJSONableObject] at h
  | .vint n, tgt, e => by intro h; simp [convertToJSONableObject] at h
  | .vint64 n, tgt, e => by intro h; simp [convertToJSONableObject] at h
  | .vuint64 n, tgt, e => by intro h; simp [convertToJSONableObject] at h
  | .vfloat f, tgt, e => by intro h; simp [convertToJSONableObject] at h
  | .vstr s, tgt, e => by intro h; simp [convertToJSONableObject] at h

theorem convertSeq_err_shape : ∀ (xs : YList) (tgt : Option JTarget) (e : ConvErr),
    convertSeqElems xs tgt = .error e → ∃ k, e = .unsupportedKeyType k
  | .nil, tgt, e => by intro h; simp [convertSeqElems] at h
  | .cons hd tl, tgt, e => by
      intro h
      simp only [convertSeqElems] at h
      rcases hh : convertToJSONableObject hd tgt with e1 | jv
      · rw [hh] at h; cases h; exact convert_err_shape hd tgt _ hh
      · rw [hh] at h
        rcases ht : convertSeqElems tl tgt with e2 | rest
        · rw [ht] at h; cases h; exact convertSeq_err_shape tl tgt _ ht
        · rw [ht] at h; cases h

theorem convertEntries_err_shape :
    ∀ (es : YEntries) (tgt : Option JTarget) (acc : JEntries) (e : ConvErr),
    convertMapEntries es tgt acc = .error e → ∃ k, e = .unsupportedKeyType k
  | .nil, tgt, acc, e => by intro h; simp [convertMapEntries] at h
  | .cons k v rest, tgt, acc, e => by
      intro h
      simp only [convertMapEntries] at h
      rcases hk : resolveKeyString k with e0 | ks
      · rw [hk] at h
        cases h
        cases k <;> simp [resolveKeyString] at hk <;> exact ⟨_, hk.symm⟩
      · simp only [hk] at h
        rcases hv : convertToJSONableObject v (subTargetFor tgt ks) with e1 | jv
        · simp only [hv] at h; cases h; exact convert_err_shape v _ _ hv
        · simp only [hv] at h
          exact convertEntries_err_shape rest tgt _ e h
end

mutual
theorem convert_badkey : ∀ (y : YValue) (tgt : Option JTarget),
    hasBadKey y = true → ∃ e, convertToJSONableObject y tgt = .error e
  | .vmap es, tgt, h => by
      obtain ⟨e, he⟩ := entries_badkey es (indirectTarget tgt) .nil (by simpa [hasBadKey] using h)
      exact ⟨e, by simp only [convertToJSONableObject, he]⟩
  | .vseq xs, tgt, h => by
      obtain ⟨e, he⟩ := list_badkey xs (sliceElemTarget (indirectTarget tgt))
        (by simpa [hasBadKey] using h)
      exact ⟨e, by simp only [convertToJSONableObject, he]⟩

theorem list_badkey : ∀ (xs : YList) (tgt : Option JTarget),
    listBad xs = true → ∃ e, convertSeqElems xs tgt = .error e
  | .cons hd tl, tgt, h => by
      rcases hh : convertToJSONableObject hd tgt with e1 | jv
      · exact ⟨e1, by simp [convertSeqElems, hh]⟩
      · have hhd : hasBadKey hd = false := by
          cases hx : hasBadKey hd
          · rfl
          · obtain ⟨e, he⟩ := convert_badkey hd tgt hx
            rw [he] at hh; cases hh
        simp only [listBad, hhd, Bool.false_or] at h
        obtain ⟨e2, ht⟩ := list_badkey tl tgt h
        exact ⟨e2, by simp [convertSeqElems, hh, ht]⟩

theorem entries_badkey : ∀ (es : YEntries) (tgt : Option JTarget) (acc : JEntries),
    entriesBad es = true → ∃ e, convertMapEntries es tgt acc = .error e
  | .cons k v rest, tgt, acc, h => by
      rcases hk : resolveKeyString k with e0 | ks
      · exact ⟨e0, by simp [convertMapEntries, hk]⟩
      · have hbk : badKeyKind k = false := by
          cases hx : badKeyKind k
          · rfl
          · rw [badKeyKind_err k hx] at hk; cases hk
        rcases hv : convertToJSONableObject v (subTargetFor tgt ks) with e1 | jv
        · exact ⟨e1, by simp [convertMapEntries, hk, hv]⟩
        · have hbv : hasBadKey v = false := by
            cases hx : hasBadKey v
            · rfl
            · obtain ⟨e, he⟩ := convert_badkey v (subTargetFor tgt ks) hx
              rw [he] at hv; cases hv
          simp only [entriesBad, hbk, hbv, Bool.false_or] at h
          obtain ⟨e2, ht⟩ := entries_badkey rest tgt (assocSet acc ks jv) h
          exact ⟨e2, by simp [convertMapEntries, hk, hv, ht]⟩
end

/-- C8: a mapping key of an offending kind (null, or a sequence or
mapping, i.e. anything other than string/int/uint/float/bool), anywhere
in the value tree and for every destination descriptor, makes
`convertToJSONableObject` return the fatal unsupported-key-type error;
no converted tree is returned. -/
theorem c8_theorem (y : YValue) (tgt : Option JTarget) (h : hasBadKey y = true) :
    ∃ k, convertToJSONableObject y tgt = .error (.unsupportedKeyType k) := by
  obtain ⟨e, he⟩ := convert_badkey y tgt h
  obtain ⟨k, rfl⟩ := convert_err_shape y tgt e he
  exact ⟨k, he⟩

/-- C8 witness: a null key nested inside a sequence-of-mappings aborts
the conversion. -/
theorem c8_witness :
    hasBadKey (.vseq (.cons (.vmap (.cons .vnull (.vstr "a") .nil)) .nil)) = true
    ∧ ∃ k, convertToJSONableObject
        (.vseq (.cons (.vmap (.cons .vnull (.vstr "a") .nil)) .nil)) none
        = .error (.unsupportedKeyType k) :=
  ⟨by decide, c8_theorem _ none (by decide)⟩

/-! ## Claim C3: duplicate keys, permissive vs strict -/

mutual
theorem parse_eq : ∀ (b : Bool) (y : YValue), parseResolve b y =
    (if hasDupKeys y then .error .duplicateKey else .ok (lastWinsV y))
  | b, .vmap es => by
      simp only [parseResolve, hasDupKeys, lastWinsV]
      cases hd : entriesHaveDup es with
      | true => simp
      | false =>
          simp only [Bool.false_eq_true, if_false, Bool.false_or,
            parseEntries_eq b es .nil]
          cases he : entriesDup es <;> simp
  | b, .vseq xs => by
      simp only [parseResolve, hasDupKeys, lastWinsV, parseList_eq b xs]
      cases hx : listDup xs <;> simp
  | _, .vnull => rfl
  | _, .vbool _ => rfl
  | _, .vint _ => rfl
  | _, .vint64 _ => rfl
  | _, .vuint64 _ => rfl
  | _, .vfloat _ => rfl
  | _, .vstr _ => rfl

theorem parseList_eq : ∀ (b : Bool) (xs : YList), parseList b xs =
    (if listDup xs then .error .duplicateKey else .ok (lastWinsList xs))
  | _, .nil => rfl
  | b, .cons hd tl => by
      simp only [parseList, parse_eq b hd, parseList_eq b tl, listDup, lastWinsList]
      cases hh : hasDupKeys hd with
      | true => simp
      | false =>
          cases ht : listDup tl <;> simp

theorem parseEntries_eq : ∀ (b : Bool) (es : YEntries) (acc : YEntries),
    parseEntries b es acc =
      (if entriesDup es then .error .duplicateKey
       else .ok (lastWinsEntries es acc))
  | _, .nil, acc => rfl
  | b, .cons k v rest, acc => by
      simp only [parseEntries, parse_eq b v, entriesDup, lastWinsEntries]
      cases hh : hasDupKeys v with
      | true => simp
      | false =>
          simp only [Bool.false_eq_true, if_false, Bool.false_or]
          exact parseEntries_eq b rest (assocSetY acc k (lastWinsV v))
end

/-- The raw document `a: true / a: false` (two identical keys). -/
def dupDoc : YValue :=
  .vmap (.cons (.vstr "a") (.vbool true) (.cons (.vstr "a") (.vbool false) .nil))

/-- The untagged record `UnmarshalString` of the tests: string fields
named `A` and `True`. -/
def dupFields : List (String × JTarget) := [("A", JTarget.jtString), ("True", JTarget.jtString)]

/-- C3 counterexample: the permissive half of the claim fails at
`a: true / a: false`.  With the pinned `gopkg.in/yaml.v2` v2.4.0 a
duplicate key is a fatal error in permissive mode too
(`src/yaml_test.go` `TestUnmarshalFails` expects plain `Unmarshal` of
this document to fail, and the duplicate-field test expects plain
`YAMLToJSON` to fail), so `Unmarshal` does not return the
last-occurrence-wins value `{A: "false"}`. -/
theorem c3_counterexample :
    Unmarshal dupDoc dupFields = .error .duplicateKey
    ∧ Unmarshal dupDoc dupFields ≠ .ok [("A", .jstr "false")]
    ∧ YAMLToJSON dupDoc = .error .duplicateKey :=
  ⟨by decide, by decide, by decide⟩

/-- C3 (amended): a mapping with two case-sensitive-identical keys at
one mapping level is a fatal duplicate-key error with no partial value
under BOTH the permissive and the strict entry points - the pinned
parser rejects duplicates regardless of `SetStrict` - while a
duplicate-free document parses to its (trivial) last-wins collapse in
either mode; `a: true / a: false` decoded into a record therefore
errors under `Unmarshal` as well as `UnmarshalStrict`. -/
theorem c3_theorem :
    (∀ (b : Bool) (raw : YValue) (tgt : Option JTarget), hasDupKeys raw = true →
      yamlToJSON b raw tgt = .error .duplicateKey)
    ∧ (∀ (b : Bool) (raw : YValue) (tgt : Option JTarget), hasDupKeys raw = false →
        yamlToJSON b raw tgt = convertToJSONableObject (lastWinsV raw) tgt)
    ∧ Unmarshal dupDoc dupFields = .error .duplicateKey
    ∧ UnmarshalStrict dupDoc dupFields = .error .duplicateKey := by
  refine ⟨fun b raw tgt h => ?_, fun b raw tgt h => ?_, by decide, by decide⟩
  · simp [yamlToJSON, parse_eq b raw, h]
  · simp [yamlToJSON, parse_eq b raw, h]

/-- C3 witness: the error half of the amended theorem applied to the
duplicate document in permissive mode. -/
theorem c3_witness :
    hasDupKeys dupDoc = true
    ∧ yamlToJSON false dupDoc none = .error .duplicateKey :=
  ⟨by decide, c3_theorem.1 false dupDoc none (by decide)⟩

/-! ## Claim C5: JSON -> YAML -> JSON round trip on scalar objects -/

/-- The scalars of the claim: string, boolean, null, or an integer in
the 53-bit-safe range. -/
def safeScalar : YValue → Bool
  | .vstr _ => true
  | .vbool _ => true
  | .vnull => true
  | .vint n => n.natAbs ≤ 2 ^ 53 - 1
  | .vint64 n => n.natAbs ≤ 2 ^ 53 - 1
  | _ => false

/-- C5: for a JSON value of the shape `{"t": scalar}` with a string,
boolean, null, or 53-bit-safe integer scalar, converting the
`JSONToYAML` output back with `YAMLToJSON` reproduces the value
exactly (the scalar and the key `t` unchanged). -/
theorem c5_theorem (s : YValue) (h : safeScalar s = true) :
    YAMLToJSON (jsonToYAMLTree (.vmap (.cons (.vstr "t") s .nil)))
      = .ok (.jobj (.cons "t" (jOfScalar s) .nil)) := by
  cases s <;> first
    | rfl
    | simp [safeScalar] at h

/-- C5 witness: the round trip at `{"t": 42}`. -/
theorem c5_witness :
    safeScalar (.vint 42) = true
    ∧ YAMLToJSON (jsonToYAMLTree (.vmap (.cons (.vstr "t") (.vint 42) .nil)))
        = .ok (.jobj (.cons "t" (jOfScalar (.vint 42)) .nil)) :=
  ⟨by decide, c5_theorem (.vint 42) (by decide)⟩

/-! ## Supporting lemmas for claim C7: the binary64 rounding model -/

theorem nlogAux_eq (b : Nat) : ∀ (fuel n : Nat), n ≤ fuel → nlogAux b fuel n = Nat.log b n
  | 0, n, h => by
      have hn : n = 0 := Nat.le_zero.mp h
      subst hn
      rw [nlogAux, Nat.log_zero_right]
  | fuel + 1, n, h => by
      rw [nlogAux]
      by_cases hc : b ≤ n ∧ 2 ≤ b
      · rw [if_pos hc]
        have hn0 : 0 < n := by omega
        have hdiv : n / b ≤ fuel := by
          have := Nat.div_lt_self hn0 hc.2
          omega
        rw [nlogAux_eq b fuel (n / b) hdiv]
        conv_rhs => rw [Nat.log]
        rw [dif_pos ⟨hc.1, hc.2⟩]
      · rw [if_neg hc]
        conv_rhs => rw [Nat.log]
        rw [dif_neg (by omega)]

theorem nlog_eq (b n : Nat) : nlog b n = Nat.log b n :=
  nlogAux_eq b n n (le_refl n)

theorem qpow2_eq (e : Int) : qpow2 e = (2 : ℚ) ^ e := by
  rw [qpow2]
  split
  · next he =>
      obtain ⟨k, rfl⟩ : ∃ k : ℕ, e = (k : ℤ) := ⟨e.toNat, (Int.toNat_of_nonneg he).symm⟩
      have hk : ((k : ℤ)).toNat = k := by omega
      rw [Rat.mkRat_one, zpow_natCast, hk, Int.ofNat_eq_natCast]
      push_cast
      rfl
  · next he =>
      obtain ⟨k, rfl⟩ : ∃ k : ℕ, e = -(k : ℤ) :=
        ⟨(-e).toNat, by omega⟩
      rw [Rat.mkRat_eq_div, zpow_neg, zpow_natCast]
      have hk : (-(-(k : ℤ))).toNat = k := by omega
      rw [hk]
      push_cast
      rw [one_div]

theorem le2pow_iff (e : Int) (q : ℚ) :
    le2pow e q = true ↔ (2 : ℚ) ^ e ≤ q := by
  obtain ⟨n, d, hd0, hred⟩ := q
  have hdq : (0 : ℚ) < (d : ℚ) := by exact_mod_cast Nat.pos_of_ne_zero hd0
  have hqeq : (Rat.mk' n d hd0 hred : ℚ) = (n : ℚ) / (d : ℚ) := by
    rw [Rat.mk'_eq_divInt, Rat.divInt_eq_div]
    push_cast
    rfl
  have hnum : (Rat.mk' n d hd0 hred).num = n := rfl
  have hden : (Rat.mk' n d hd0 hred).den = d := rfl
  rw [le2pow, hnum, hden, hqeq]
  split
  · next he =>
      obtain ⟨k, rfl⟩ : ∃ k : ℕ, e = (k : ℤ) := ⟨e.toNat, (Int.toNat_of_nonneg he).symm⟩
      rw [decide_eq_true_iff, zpow_natCast, le_div_iff₀ hdq]
      have hk : ((k : ℤ)).toNat = k := by omega
      rw [hk]
      constructor
      · intro h
        calc (2:ℚ) ^ k * (d : ℚ) = (((d : ℤ) * 2 ^ k : ℤ) : ℚ) := by push_cast; ring
          _ ≤ ((n : ℤ) : ℚ) := by exact_mod_cast h
      · intro h
        have h2 : (((d : ℤ) * 2 ^ k : ℤ) : ℚ) ≤ ((n : ℤ) : ℚ) := by
          calc (((d : ℤ) * 2 ^ k : ℤ) : ℚ) = (2:ℚ) ^ k * (d : ℚ) := by push_cast; ring
            _ ≤ (n : ℚ) := h
        exact_mod_cast h2
  · next he =>
      obtain ⟨k, rfl⟩ : ∃ k : ℕ, e = -(k : ℤ) := ⟨(-e).toNat, by omega⟩
      rw [decide_eq_true_iff, zpow_neg, zpow_natCast]
      have hk : (-(-(k : ℤ))).toNat = k := by omega
      rw [hk]
      rw [inv_le_iff_one_le_mul₀ (by positivity), div_mul_eq_mul_div,
        le_div_iff₀ hdq, one_mul]
      constructor
      · intro h
        calc ((d : ℤ) : ℚ) ≤ ((n * 2 ^ k : ℤ) : ℚ) := by exact_mod_cast h
          _ = (n : ℚ) * 2 ^ k := by push_cast; ring
      · intro h
        have h2 : ((d : ℤ) : ℚ) ≤ ((n * 2 ^ k : ℤ) : ℚ) := by
          calc ((d : ℤ) : ℚ) = (d : ℚ) := by push_cast; rfl
            _ ≤ (n : ℚ) * 2 ^ k := h
            _ = ((n * 2 ^ k : ℤ) : ℚ) := by push_cast; ring
        exact_mod_cast h2

theorem qlog2_spec (q : ℚ) (hq : 0 < q) :
    (2:ℚ) ^ (qlog2 q) ≤ q ∧ q < (2:ℚ) ^ (qlog2 q + 1) := by
  have hnum : 0 < q.num := Rat.num_pos.mpr hq
  have hN0 : 0 < q.num.toNat := by omega
  have hD0 : 0 < q.den := q.den_pos
  have ha1 : (2:ℕ) ^ Nat.log 2 q.num.toNat ≤ q.num.toNat :=
    Nat.pow_log_le_self 2 (by omega)
  have ha2 : q.num.toNat < 2 ^ (Nat.log 2 q.num.toNat + 1) :=
    Nat.lt_pow_succ_log_self (by norm_num) _
  have hb1 : (2:ℕ) ^ Nat.log 2 q.den ≤ q.den := Nat.pow_log_le_self 2 (by omega)
  have hb2 : q.den < 2 ^ (Nat.log 2 q.den + 1) := Nat.lt_pow_succ_log_self (by norm_num) _
  have hqND : q = ((q.num.toNat : ℚ)) / ((q.den : ℚ)) := by
    rw [eq_div_iff (by exact_mod_cast hD0.ne')]
    have h1 : ((q.num.toNat : ℚ)) = ((q.num : ℤ) : ℚ) := by
      exact_mod_cast congrArg (fun z : ℤ => (z : ℚ)) (Int.toNat_of_nonneg (le_of_lt hnum))
    rw [h1, Rat.mul_den_eq_num]
  set a := Nat.log 2 q.num.toNat with ha
  set b := Nat.log 2 q.den with hb
  have hDq : (0:ℚ) < (q.den : ℚ) := by exact_mod_cast hD0
  -- upper bound: q < 2 ^ ((a : ℤ) - b + 1)
  have key1 : q < (2:ℚ) ^ ((a : ℤ) - b + 1) := by
    have e1 : (2:ℚ) ^ ((a : ℤ) - b + 1) = (2:ℚ) ^ (a + 1) / (2:ℚ) ^ b := by
      rw [div_eq_mul_inv, ← zpow_natCast (2:ℚ) (a+1), ← zpow_natCast (2:ℚ) b,
        ← zpow_neg, ← zpow_add₀ (two_ne_zero)]
      congr 1
      push_cast
      ring
    rw [e1, hqND, div_lt_div_iff₀ hDq (by positivity)]
    have hnn : q.num.toNat * 2 ^ b < 2 ^ (a + 1) * q.den := by
      calc q.num.toNat * 2 ^ b < 2 ^ (a + 1) * 2 ^ b :=
            (Nat.mul_lt_mul_right (Nat.pos_pow_of_pos b (by norm_num))).mpr ha2
        _ ≤ 2 ^ (a + 1) * q.den :=
            Nat.mul_le_mul_left _ hb1
    exact_mod_cast hnn
  -- lower bound: 2 ^ ((a : ℤ) - b - 1) < q
  have key2 : (2:ℚ) ^ ((a : ℤ) - b - 1) < q := by
    have e2 : (2:ℚ) ^ ((a : ℤ) - b - 1) = (2:ℚ) ^ a / (2:ℚ) ^ (b + 1) := by
      rw [div_eq_mul_inv, ← zpow_natCast (2:ℚ) a, ← zpow_natCast (2:ℚ) (b+1),
        ← zpow_neg, ← zpow_add₀ (two_ne_zero)]
      congr 1
      push_cast
      ring
    rw [e2, hqND, div_lt_div_iff₀ (by positivity) hDq]
    have hnn : 2 ^ a * q.den < q.num.toNat * 2 ^ (b + 1) := by
      calc 2 ^ a * q.den < 2 ^ a * 2 ^ (b + 1) :=
            (Nat.mul_lt_mul_left (Nat.pos_pow_of_pos a (by norm_num))).mpr hb2
        _ ≤ q.num.toNat * 2 ^ (b + 1) :=
            Nat.mul_le_mul_right _ ha1
    exact_mod_cast hnn
  have hL : qlog2 q = (if le2pow ((a:ℤ) - b + 1) q then (a:ℤ) - b + 1
      else if le2pow ((a:ℤ) - b) q then (a:ℤ) - b else (a:ℤ) - b - 1) := by
    simp only [qlog2, nlog_eq, ← ha, ← hb]
  rw [hL]
  by_cases h1 : le2pow ((a:ℤ) - b + 1) q = true
  · exact absurd ((le2pow_iff _ q).mp h1) (not_le.mpr key1)
  · rw [if_neg h1]
    by_cases h2 : le2pow ((a:ℤ) - b) q = true
    · rw [if_pos h2]
      refine ⟨(le2pow_iff _ q).mp h2, ?_⟩
      have := (le2pow_iff ((a:ℤ) - b + 1) q).not.mp h1
      exact not_le.mp (by simpa using this) |>.trans_le (le_refl _)
    · rw [if_neg h2]
      refine ⟨le_of_lt (by simpa using key2), ?_⟩
      have := (le2pow_iff ((a:ℤ) - b) q).not.mp h2
      have h3 : ¬ (2:ℚ) ^ ((a:ℤ) - b) ≤ q := by simpa using this
      have h4 : q < (2:ℚ) ^ ((a:ℤ) - b) := not_le.mp h3
      simpa [sub_add_cancel] using h4

theorem roundHalfEvenQ_intCast (n : Int) : roundHalfEvenQ (n : ℚ) = n := by
  have hmk : (mkRat 1 2 : ℚ) = 1/2 := by rw [Rat.mkRat_eq_div]; norm_num
  simp only [roundHalfEvenQ, Int.floor_intCast, sub_self, hmk]
  norm_num

theorem roundHalfEvenQ_le (q : ℚ) : ((roundHalfEvenQ q : ℤ) : ℚ) ≤ q + 1/2 := by
  have hf : ((⌊q⌋ : ℤ) : ℚ) ≤ q := Int.floor_le q
  have hmk : (mkRat 1 2 : ℚ) = 1/2 := by rw [Rat.mkRat_eq_div]; norm_num
  simp only [roundHalfEvenQ, hmk]
  split_ifs with h1 h2 h3 <;> push_cast <;> linarith

/-- Rounding to binary64 is the identity on every value of the form
`m * 2 ^ p` with `|m| < 2 ^ 53` and `-1074 ≤ p ≤ 971` - exactly the
finite binary64 values. -/
theorem roundFloat_repr (q : ℚ) (m p : Int) (hm : |m| < 2 ^ 53)
    (hp1 : -1074 ≤ p) (hp2 : p ≤ 971) (hq : q = (m : ℚ) * (2:ℚ) ^ p) :
    roundFloat fmt64 q = .finite q := by
  by_cases hq0 : q = 0
  · rw [roundFloat, if_pos hq0, hq0]
  · have ha0 : (0:ℚ) < |q| := abs_pos.mpr hq0
    have habs : |q| = (|m| : ℚ) * (2:ℚ) ^ p := by
      rw [hq, abs_mul, abs_of_pos (zpow_pos (by norm_num : (0:ℚ) < 2) p)]
    have hmq : (|m| : ℚ) < (2:ℚ) ^ (53:ℤ) := by
      have h1 : (|m| : ℚ) < ((2^53 : ℤ) : ℚ) := by exact_mod_cast hm
      calc (|m| : ℚ) < ((2^53 : ℤ) : ℚ) := h1
        _ = (2:ℚ) ^ (53:ℤ) := by push_cast; norm_num
    have hupper : |q| < (2:ℚ) ^ (53 + p) := by
      rw [habs, zpow_add₀ (two_ne_zero)]
      exact mul_lt_mul_of_pos_right hmq (zpow_pos (by norm_num) p)
    have hspec := qlog2_spec |q| ha0
    have he53 : qlog2 |q| < 53 + p := by
      have := lt_of_le_of_lt hspec.1 hupper
      exact (zpow_lt_zpow_iff_right₀ (by norm_num : (1:ℚ) < 2)).mp this
    have hple : max (qlog2 |q| - 52) (-1074) ≤ p := by
      apply max_le <;> omega
    rw [roundFloat, if_neg hq0]
    simp only [fmt64]
    have h52 : ((53:ℕ) : ℤ) - 1 = 52 := by norm_num
    rw [h52]
    set e := qlog2 |q| with he
    set ps : Int := max (e - 52) (-1074) with hps
    have hexp : (((p - ps).toNat : ℕ) : ℤ) = p - ps := Int.toNat_of_nonneg (by omega)
    -- the scaled mantissa is the integer |m| * 2 ^ (p - ps)
    have hscaled : |q| * qpow2 (-ps) = ((|m| * 2 ^ (p - ps).toNat : ℤ) : ℚ) := by
      rw [habs, qpow2_eq, mul_assoc, ← zpow_add₀ (two_ne_zero)]
      push_cast
      rw [← zpow_natCast (2:ℚ) (p - ps).toNat, hexp, sub_eq_add_neg]
    rw [hscaled, roundHalfEvenQ_intCast]
    -- the rounded value is |q| again
    have hval : ((|m| * 2 ^ (p - ps).toNat : ℤ) : ℚ) * qpow2 ps = |q| := by
      rw [qpow2_eq, habs]
      push_cast
      rw [← zpow_natCast (2:ℚ) (p - ps).toNat, hexp, mul_assoc,
        ← zpow_add₀ (two_ne_zero)]
      have hpe : p - ps + ps = p := by ring
      rw [hpe]
    rw [hval]
    -- no overflow
    have hnoover : ¬ qpow2 (971 + ((53:ℕ):ℤ)) ≤ |q| := by
      rw [qpow2_eq]
      push_cast
      apply not_le.mpr
      calc |q| < (2:ℚ) ^ (53 + p) := hupper
        _ ≤ (2:ℚ) ^ (971 + (53:ℤ)) := zpow_le_zpow_right₀ (by norm_num) (by omega)
    rw [if_neg hnoover]
    by_cases hqneg : q < 0
    · rw [if_pos hqneg, abs_of_neg hqneg, neg_neg]
    · rw [if_neg hqneg, abs_of_nonneg (not_lt.mp hqneg)]

/-- Rounding an integer to binary64 produces an integer value or an
infinity. -/
theorem roundFloat_int (n : Int) :
    (∃ k : Int, roundFloat fmt64 (n:ℚ) = .finite (k:ℚ))
    ∨ roundFloat fmt64 (n:ℚ) = .inf ∨ roundFloat fmt64 (n:ℚ) = .neginf := by
  by_cases h0 : (n:ℚ) = 0
  · left
    exact ⟨0, by rw [roundFloat, if_pos h0]; norm_num⟩
  · rw [roundFloat, if_neg h0]
    simp only [fmt64]
    have h52 : ((53:ℕ):ℤ) - 1 = 52 := by norm_num
    rw [h52]
    set e := qlog2 |(n:ℚ)| with he
    set ps : Int := max (e - 52) (-1074) with hps
    have habs : |(n:ℚ)| = ((|n| : ℤ) : ℚ) := by push_cast; rfl
    have hkey : ∃ k : Int,
        ((roundHalfEvenQ (|(n:ℚ)| * qpow2 (-ps)) : ℤ) : ℚ) * qpow2 ps = (k:ℚ) := by
      by_cases hpsn : 0 ≤ ps
      · refine ⟨roundHalfEvenQ (|(n:ℚ)| * qpow2 (-ps)) * 2 ^ ps.toNat, ?_⟩
        push_cast
        rw [← zpow_natCast (2:ℚ) ps.toNat, Int.toNat_of_nonneg hpsn, qpow2_eq, qpow2_eq]
      · push_neg at hpsn
        have hexact : |(n:ℚ)| * qpow2 (-ps) = ((|n| * 2 ^ (-ps).toNat : ℤ) : ℚ) := by
          rw [habs, qpow2_eq]
          push_cast
          rw [← zpow_natCast (2:ℚ) (-ps).toNat, Int.toNat_of_nonneg (by omega)]
        rw [hexact, roundHalfEvenQ_intCast]
        refine ⟨|n|, ?_⟩
        rw [qpow2_eq]
        push_cast
        rw [← zpow_natCast (2:ℚ) (-ps).toNat, Int.toNat_of_nonneg (by omega),
          mul_assoc, ← zpow_add₀ (two_ne_zero)]
        simp
    obtain ⟨k, hk⟩ := hkey
    rw [hk]
    split
    · split
      · right; right; rfl
      · right; left; rfl
    · left
      by_cases hneg : (n:ℚ) < 0
      · rw [if_pos hneg]
        exact ⟨-k, by rw [Int.cast_neg]⟩
      · rw [if_neg hneg]
        exact ⟨k, rfl⟩

/-- Rounding a value of `[0, 2^64)` to binary64 overshoots by less than
`2 ^ 10`. -/
theorem roundFloat_le (x : ℚ) (hx : 0 ≤ x) (hx2 : x < (2:ℚ) ^ (64:ℤ)) (v : ℚ)
    (hv : roundFloat fmt64 x = .finite v) : v ≤ x + (2:ℚ) ^ (10:ℤ) := by
  by_cases h0 : x = 0
  · rw [roundFloat, if_pos h0] at hv
    cases hv
    subst h0
    positivity
  · rw [roundFloat, if_neg h0] at hv
    simp only [fmt64] at hv
    have h52 : ((53:ℕ):ℤ) - 1 = 52 := by norm_num
    rw [h52] at hv
    have hxpos : 0 < x := lt_of_le_of_ne hx (Ne.symm h0)
    have habs : |x| = x := abs_of_pos hxpos
    set e := qlog2 |x| with he
    set ps : Int := max (e - 52) (-1074) with hps
    have hspec := qlog2_spec |x| (abs_pos.mpr h0)
    have he63 : e < 64 := by
      have h1 : (2:ℚ) ^ e ≤ x := by rw [← habs]; exact hspec.1
      have h2 : (2:ℚ) ^ e < (2:ℚ) ^ (64:ℤ) := lt_of_le_of_lt h1 hx2
      exact (zpow_lt_zpow_iff_right₀ (by norm_num : (1:ℚ) < 2)).mp h2
    have hps11 : ps ≤ 11 := by apply max_le <;> omega
    split at hv
    · split at hv <;> cases hv
    · rw [if_neg (not_lt.mpr hx)] at hv
      cases hv
      have hM := roundHalfEvenQ_le (|x| * qpow2 (-ps))
      have hpos : (0:ℚ) < qpow2 ps := by rw [qpow2_eq]; positivity
      calc ((roundHalfEvenQ (|x| * qpow2 (-ps)) : ℤ) : ℚ) * qpow2 ps
          ≤ (|x| * qpow2 (-ps) + 1/2) * qpow2 ps :=
            mul_le_mul_of_nonneg_right hM (le_of_lt hpos)
        _ = x + (1/2) * qpow2 ps := by
            rw [add_mul, mul_assoc, qpow2_eq, qpow2_eq, ← zpow_add₀ (two_ne_zero),
              neg_add_cancel, zpow_zero, mul_one, habs]
        _ ≤ x + (2:ℚ) ^ (10:ℤ) := by
            have h3 : (1/2 : ℚ) * qpow2 ps ≤ (2:ℚ) ^ (10:ℤ) := by
              rw [qpow2_eq]
              have h4 : (1/2 : ℚ) = (2:ℚ) ^ (-1 : ℤ) := by norm_num
              rw [h4, ← zpow_add₀ (two_ne_zero)]
              exact zpow_le_zpow_right₀ (by norm_num) (by omega)
            linarith

theorem qtrunc_intCast (n : Int) : qtrunc (n:ℚ) = n := by
  rw [qtrunc]
  split
  · exact Int.floor_intCast n
  · rw [← Int.cast_neg, Int.floor_intCast]
    omega

/-- For an integral rational (denominator 1) truncation returns the
numerator. -/
theorem qtrunc_den_one (q : ℚ) (h : q.den = 1) : qtrunc q = q.num := by
  conv_lhs => rw [← (Rat.den_eq_one_iff q).mp h]
  exact qtrunc_intCast q.num

theorem goEq_finite (a b : ℚ) : GoFloat.goEq (.finite a) (.finite b) = true ↔ a = b := by
  simp [GoFloat.goEq]

/-- A non-integral rational is never IEEE-equal to the conversion of any
`int64`. -/
theorem goEq_ofInt_ne (q : ℚ) (hden : q.den ≠ 1) (t : Int) :
    GoFloat.goEq (.finite q) (ofInt64 t) = false := by
  rcases roundFloat_int t with ⟨k, hk⟩ | hk | hk <;> rw [ofInt64, hk]
  · simp only [GoFloat.goEq, decide_eq_false_iff_not]
    intro h
    apply hden
    rw [h, Rat.den_intCast]
  · rfl
  · rfl

/-- A non-integral rational is never IEEE-equal to the conversion of any
`uint64`. -/
theorem goEq_ofUint_ne (q : ℚ) (hden : q.den ≠ 1) (u : Nat) :
    GoFloat.goEq (.finite q) (ofUint64 u) = false := by
  have hcast : ((u:ℕ):ℚ) = (((u:ℤ)):ℚ) := by push_cast; rfl
  rw [ofUint64, hcast]
  exact goEq_ofInt_ne q hden (u:ℤ)

/-- A finite binary64 value strictly above `2 ^ 64` is at least
`2 ^ 64 + 2 ^ 12` (the float spacing there is `2 ^ 12` or wider). -/
theorem valid_gt_pow64 (q : ℚ) (m p : Int) (hm : |m| < 2 ^ 53)
    (hq : q = (m : ℚ) * (2:ℚ) ^ p) (hden : q.den = 1) (hbig : 2 ^ 64 < q.num) :
    2 ^ 64 + 2 ^ 12 ≤ q.num := by
  have hq' : ((q.num : ℤ) : ℚ) = q := (Rat.den_eq_one_iff q).mp hden
  have hqpos : (0:ℚ) < q := by
    rw [← hq']
    exact_mod_cast lt_trans (by norm_num) hbig
  have h64 : ((2^64 : ℤ) : ℚ) = (2:ℚ) ^ (64:ℤ) := by norm_num
  have hq64 : (2:ℚ) ^ (64:ℤ) < q := by
    rw [← h64, ← hq']
    exact_mod_cast hbig
  -- p is at least 12
  have hmq : (|m| : ℚ) < (2:ℚ) ^ (53:ℤ) := by
    have h1 : (|m| : ℚ) < ((2^53 : ℤ) : ℚ) := by exact_mod_cast hm
    calc (|m| : ℚ) < ((2^53 : ℤ) : ℚ) := h1
      _ = (2:ℚ) ^ (53:ℤ) := by norm_num
  have habs : |q| = (|m| : ℚ) * (2:ℚ) ^ p := by
    rw [hq, abs_mul, abs_of_pos (zpow_pos (by norm_num : (0:ℚ) < 2) p)]
  have hupper : q < (2:ℚ) ^ (53 + p) := by
    calc q ≤ |q| := le_abs_self q
      _ = (|m| : ℚ) * (2:ℚ) ^ p := habs
      _ < (2:ℚ) ^ (53:ℤ) * (2:ℚ) ^ p :=
          mul_lt_mul_of_pos_right hmq (zpow_pos (by norm_num) p)
      _ = (2:ℚ) ^ (53 + p) := (zpow_add₀ (two_ne_zero) 53 p).symm
  have hp12 : 12 ≤ p := by
    have h2 : (2:ℚ) ^ (64:ℤ) < (2:ℚ) ^ (53 + p) := lt_trans hq64 hupper
    have := (zpow_lt_zpow_iff_right₀ (by norm_num : (1:ℚ) < 2)).mp h2
    omega
  -- integer decomposition: q.num = m * 2 ^ p.toNat
  have hP : ((p.toNat : ℕ) : ℤ) = p := Int.toNat_of_nonneg (by omega)
  have hnum : q.num = m * 2 ^ p.toNat := by
    have hc : ((q.num : ℤ) : ℚ) = ((m * 2 ^ p.toNat : ℤ) : ℚ) := by
      rw [hq', hq]
      push_cast
      rw [← zpow_natCast (2:ℚ) p.toNat, hP]
    exact_mod_cast hc
  by_cases hP64 : p.toNat ≤ 64
  · have hdvd : (2:ℤ) ^ p.toNat ∣ q.num - 2 ^ 64 := by
      have h1 : (2:ℤ) ^ p.toNat ∣ q.num := ⟨m, by rw [hnum]; ring⟩
      have h2 : (2:ℤ) ^ p.toNat ∣ 2 ^ 64 := pow_dvd_pow 2 hP64
      exact dvd_sub h1 h2
    have hle : (2:ℤ) ^ p.toNat ≤ q.num - 2 ^ 64 :=
      Int.le_of_dvd (by omega) hdvd
    have h12 : (2:ℤ) ^ 12 ≤ (2:ℤ) ^ p.toNat :=
      pow_le_pow_right₀ (by norm_num) (by omega)
    omega
  · have hm1 : 1 ≤ m := by
      by_contra hm1
      push_neg at hm1
      have h1 : m ≤ 0 := by omega
      have h2 : m * 2 ^ p.toNat ≤ 0 :=
        mul_nonpos_of_nonpos_of_nonneg h1 (by positivity)
      omega
    have h1 : (2:ℤ) ^ 65 ≤ 2 ^ p.toNat := pow_le_pow_right₀ (by norm_num) (by omega)
    have h2 : (2:ℤ) ^ p.toNat ≤ m * 2 ^ p.toNat := by
      nlinarith [pow_pos (by norm_num : (0:ℤ) < 2) p.toNat]
    have h3 : (2:ℤ) ^ 64 + 2 ^ 12 ≤ 2 ^ 65 := by norm_num
    omega

/-- `float64(math.MinInt64)` is exact. -/
theorem ofInt64_min : ofInt64 (-(2 ^ 63)) = .finite ((-(2 ^ 63) : ℤ) : ℚ) := by
  rw [ofInt64]
  exact roundFloat_repr _ (-(2 ^ 52)) 11
    (by rw [abs_neg, abs_of_nonneg (by positivity : (0:ℤ) ≤ 2 ^ 52)]; norm_num)
    (by norm_num) (by norm_num) (by push_cast; norm_num)

/-- Subtracting the constant `2 ^ 63` from an integral rational, at the
integer level. -/
theorem sub_qpow63_cast (q : ℚ) (hden : q.den = 1) :
    q - qpow2 63 = ((q.num - 2 ^ 63 : ℤ) : ℚ) := by
  conv_lhs => rw [← (Rat.den_eq_one_iff q).mp hden]
  rw [qpow2_eq]
  push_cast
  norm_num

/-- The `int64` conversion always lands in `int64` range. -/
theorem toInt64_range (f : GoFloat) :
    -(2 ^ 63) ≤ f.toInt64 ∧ f.toInt64 < 2 ^ 63 := by
  cases f with
  | finite q =>
      simp only [GoFloat.toInt64]
      split
      · exact ⟨le_refl _, by norm_num⟩
      · next h => push_neg at h; exact h
  | inf => exact ⟨le_refl _, by simp only [GoFloat.toInt64]; norm_num⟩
  | neginf => exact ⟨le_refl _, by simp only [GoFloat.toInt64]; norm_num⟩
  | nan => exact ⟨le_refl _, by simp only [GoFloat.toInt64]; norm_num⟩

theorem emod_toNat_lt (x : Int) : ((x % (2 ^ 64 : Int)).toNat : ℤ) < 2 ^ 64 := by
  have h1 := Int.emod_nonneg x (by norm_num : (2 ^ 64 : Int) ≠ 0)
  have h2 := Int.emod_lt_of_pos x (by norm_num : (0 : Int) < 2 ^ 64)
  omega

/-- The `uint64` conversion always lands in `uint64` range. -/
theorem toUint64_lt (f : GoFloat) : ((f.toUint64 : ℕ) : ℤ) < 2 ^ 64 := by
  cases f <;> simp only [GoFloat.toUint64] <;>
    first
      | (split <;> exact emod_toNat_lt _)
      | exact emod_toNat_lt _

/-- Float branch of `jsonToYAMLValue`: an integral binary64 value in
`int64` range is down-cast to `.jint`. -/
theorem jsonFloat_signed (q : ℚ) (m p : Int) (hm : |m| < 2 ^ 53)
    (hp1 : -1074 ≤ p) (hp2 : p ≤ 971) (hq : q = (m : ℚ) * (2:ℚ) ^ p)
    (hden : q.den = 1) (h1 : -(2 ^ 63) ≤ q.num) (h2 : q.num < 2 ^ 63) :
    jsonToYAMLValue (.jfloat (.finite q)) = .jint q.num := by
  have hq' : ((q.num : ℤ) : ℚ) = q := (Rat.den_eq_one_iff q).mp hden
  have ht : GoFloat.toInt64 (.finite q) = q.num := by
    simp only [GoFloat.toInt64, qtrunc_den_one q hden]
    rw [if_neg (by omega)]
  have hof : ofInt64 q.num = .finite q := by
    rw [ofInt64, hq']
    exact roundFloat_repr q m p hm hp1 hp2 hq
  simp [jsonToYAMLValue, ht, hof, goIntOfInt64, GoFloat.goEq]

/-- Float branch of `jsonToYAMLValue`: an integral binary64 value in
`[2^63, 2^64)` fails the `int64` round-trip but passes the `uint64`
one, so it is down-cast to `.juint64`. -/
theorem jsonFloat_unsigned (q : ℚ) (m p : Int) (hm : |m| < 2 ^ 53)
    (hp1 : -1074 ≤ p) (hp2 : p ≤ 971) (hq : q = (m : ℚ) * (2:ℚ) ^ p)
    (hden : q.den = 1) (h1 : 2 ^ 63 ≤ q.num) (h2 : q.num < 2 ^ 64) :
    jsonToYAMLValue (.jfloat (.finite q)) = .juint64 q.num.toNat := by
  have hq' : ((q.num : ℤ) : ℚ) = q := (Rat.den_eq_one_iff q).mp hden
  -- the signed conversion clamps to MinInt64, which is not equal to q
  have ht : GoFloat.toInt64 (.finite q) = -(2 ^ 63) := by
    simp only [GoFloat.toInt64, qtrunc_den_one q hden]
    rw [if_pos (Or.inr h1)]
  have hne : GoFloat.goEq (.finite q) (.finite ((-(2 ^ 63) : ℤ) : ℚ)) = false := by
    simp only [GoFloat.goEq, decide_eq_false_iff_not]
    intro h
    rw [← hq'] at h
    have hcontr : q.num = -(2 ^ 63) := by exact_mod_cast h
    omega
  -- q is at least 2^63, so the unsigned lowering takes the high branch
  have hq63 : ¬ q < qpow2 63 := by
    rw [qpow2_eq]
    push_neg
    calc (2:ℚ) ^ (63:ℤ) = ((2 ^ 63 : ℤ) : ℚ) := by norm_num
      _ ≤ ((q.num : ℤ) : ℚ) := by exact_mod_cast h1
      _ = q := hq'
  -- the exponent p is at least 11
  have hq63' : (2:ℚ) ^ (63:ℤ) ≤ q := by
    calc (2:ℚ) ^ (63:ℤ) = ((2 ^ 63 : ℤ) : ℚ) := by norm_num
      _ ≤ ((q.num : ℤ) : ℚ) := by exact_mod_cast h1
      _ = q := hq'
  have hmq : (|m| : ℚ) < (2:ℚ) ^ (53:ℤ) := by
    have hc : (|m| : ℚ) < ((2 ^ 53 : ℤ) : ℚ) := by exact_mod_cast hm
    calc (|m| : ℚ) < ((2 ^ 53 : ℤ) : ℚ) := hc
      _ = (2:ℚ) ^ (53:ℤ) := by norm_num
  have hupper : q < (2:ℚ) ^ (53 + p) := by
    have habs : |q| = (|m| : ℚ) * (2:ℚ) ^ p := by
      rw [hq, abs_mul, abs_of_pos (zpow_pos (by norm_num : (0:ℚ) < 2) p)]
    calc q ≤ |q| := le_abs_self q
      _ = (|m| : ℚ) * (2:ℚ) ^ p := habs
      _ < (2:ℚ) ^ (53:ℤ) * (2:ℚ) ^ p :=
          mul_lt_mul_of_pos_right hmq (zpow_pos (by norm_num) p)
      _ = (2:ℚ) ^ (53 + p) := (zpow_add₀ (two_ne_zero) 53 p).symm
  have hp11 : 11 ≤ p := by
    have hlt : (2:ℚ) ^ (63:ℤ) < (2:ℚ) ^ (53 + p) := lt_of_le_of_lt hq63' hupper
    have := (zpow_lt_zpow_iff_right₀ (by norm_num : (1:ℚ) < 2)).mp hlt
    omega
  have hP : ((p.toNat : ℕ) : ℤ) = p := Int.toNat_of_nonneg (by omega)
  have hnum : q.num = m * 2 ^ p.toNat := by
    have hc : ((q.num : ℤ) : ℚ) = ((m * 2 ^ p.toNat : ℤ) : ℚ) := by
      rw [hq', hq]
      push_cast
      rw [← zpow_natCast (2:ℚ) p.toNat, hP]
    exact_mod_cast hc
  -- the exact subtraction q - 2^63 is representable in binary64
  have hsplit : (2:ℤ) ^ p.toNat = 2 ^ (p.toNat - 11) * 2 ^ 11 := by
    rw [← pow_add]
    congr 1
    omega
  have hnum' : q.num - 2 ^ 63 = (m * 2 ^ (p.toNat - 11) - 2 ^ 52) * 2 ^ 11 := by
    calc q.num - 2 ^ 63
        = m * (2 ^ (p.toNat - 11) * 2 ^ 11) - 2 ^ 63 := by rw [hnum, hsplit]
      _ = (m * 2 ^ (p.toNat - 11) - 2 ^ 52) * 2 ^ 11 := by ring
  have hprod0 : 0 ≤ (m * 2 ^ (p.toNat - 11) - 2 ^ 52) * 2 ^ 11 := by
    rw [← hnum']; omega
  have hprod1 : (m * 2 ^ (p.toNat - 11) - 2 ^ 52) * 2 ^ 11 < 2 ^ 63 := by
    rw [← hnum']; omega
  have hm'0 : 0 ≤ m * 2 ^ (p.toNat - 11) - 2 ^ 52 := by
    by_contra hcon
    push_neg at hcon
    have h3 : (m * 2 ^ (p.toNat - 11) - 2 ^ 52) * 2 ^ 11 ≤ (-1) * 2 ^ 11 :=
      mul_le_mul_of_nonneg_right (by omega) (by norm_num)
    linarith
  have hm'1 : m * 2 ^ (p.toNat - 11) - 2 ^ 52 < 2 ^ 53 := by
    by_contra hcon
    push_neg at hcon
    have h3 : (2:ℤ) ^ 53 * 2 ^ 11 ≤ (m * 2 ^ (p.toNat - 11) - 2 ^ 52) * 2 ^ 11 :=
      mul_le_mul_of_nonneg_right hcon (by norm_num)
    have h4 : (2:ℤ) ^ 63 < 2 ^ 53 * 2 ^ 11 := by norm_num
    linarith
  have hdecomp : ((q.num - 2 ^ 63 : ℤ) : ℚ)
      = ((m * 2 ^ (p.toNat - 11) - 2 ^ 52 : ℤ) : ℚ) * (2:ℚ) ^ (11:ℤ) := by
    rw [hnum']
    push_cast
    norm_num
  have hsub : GoFloat.subPow63 (.finite q) = .finite ((q.num - 2 ^ 63 : ℤ) : ℚ) := by
    simp only [GoFloat.subPow63]
    rw [sub_qpow63_cast q hden]
    exact roundFloat_repr _ (m * 2 ^ (p.toNat - 11) - 2 ^ 52) 11
      (abs_lt.mpr ⟨by linarith, hm'1⟩) (by norm_num) (by norm_num) hdecomp
  -- the unsigned conversion recovers q.num exactly
  have hu : GoFloat.toUint64 (.finite q) = q.num.toNat := by
    simp only [GoFloat.toUint64, decide_eq_false hq63, Bool.false_eq_true, if_false,
      hsub, GoFloat.toInt64, qtrunc_intCast]
    rw [if_neg (by omega)]
    have harith : q.num - 2 ^ 63 + 2 ^ 63 = q.num := by ring
    rw [harith, Int.emod_eq_of_lt (by omega) (by omega)]
  have hofu : ofUint64 q.num.toNat = .finite q := by
    rw [ofUint64]
    have hc : ((q.num.toNat : ℕ) : ℚ) = ((q.num : ℤ) : ℚ) := by
      norm_cast
      omega
    rw [hc, hq']
    exact roundFloat_repr q m p hm hp1 hp2 hq
  have hofmin : ofInt64 (GoFloat.toInt64 (.finite q)) = .finite ((-(2 ^ 63) : ℤ) : ℚ) := by
    rw [ht]; exact ofInt64_min
  simp only [jsonToYAMLValue, hofmin, hne, Bool.false_eq_true, if_false, hu, hofu]
  simp [GoFloat.goEq]

/-- Float branch of `jsonToYAMLValue`: a finite binary64 value that is
not an integer in `[-2^63, 2^64)` fails both round-trip checks and is
kept as a float. -/
theorem jsonFloat_keep (q : ℚ) (m p : Int) (hm : |m| < 2 ^ 53)
    (hp1 : -1074 ≤ p) (hp2 : p ≤ 971) (hq : q = (m : ℚ) * (2:ℚ) ^ p)
    (hout : ¬(q.den = 1 ∧ -(2 ^ 63) ≤ q.num ∧ q.num < 2 ^ 64)) :
    jsonToYAMLValue (.jfloat (.finite q)) = .jfloat (.finite q) := by
  by_cases hden : q.den = 1
  case neg =>
    simp only [jsonToYAMLValue, goEq_ofInt_ne q hden, goEq_ofUint_ne q hden,
      Bool.false_eq_true, if_false]
  case pos =>
    have hq' : ((q.num : ℤ) : ℚ) = q := (Rat.den_eq_one_iff q).mp hden
    have hrange : q.num < -(2 ^ 63) ∨ 2 ^ 64 ≤ q.num := by
      by_contra hcon
      push_neg at hcon
      exact hout ⟨hden, hcon.1, hcon.2⟩
    rcases hrange with hneg | hbig
    · -- far negative: int64 clamps to MinInt64, uint64 wraps to 2^63
      have ht : GoFloat.toInt64 (.finite q) = -(2 ^ 63) := by
        simp only [GoFloat.toInt64, qtrunc_den_one q hden]
        rw [if_pos (Or.inl hneg)]
      have hne1 : GoFloat.goEq (.finite q) (.finite ((-(2 ^ 63) : ℤ) : ℚ)) = false := by
        simp only [GoFloat.goEq, decide_eq_false_iff_not]
        intro h
        rw [← hq'] at h
        have hcontr : q.num = -(2 ^ 63) := by exact_mod_cast h
        omega
      have hofmin : ofInt64 (GoFloat.toInt64 (.finite q))
          = .finite ((-(2 ^ 63) : ℤ) : ℚ) := by
        rw [ht]; exact ofInt64_min
      have hlt : q < qpow2 63 := by
        rw [qpow2_eq]
        calc q = ((q.num : ℤ) : ℚ) := hq'.symm
          _ < ((2 ^ 63 : ℤ) : ℚ) := by exact_mod_cast (show q.num < 2 ^ 63 by omega)
          _ = (2:ℚ) ^ (63:ℤ) := by norm_num
      have hu : GoFloat.toUint64 (.finite q) = 2 ^ 63 := by
        have hmod : ((-(2 ^ 63) : ℤ) % (2 ^ 64 : Int)).toNat = 2 ^ 63 := by
          with_unfolding_all decide
        simp only [GoFloat.toUint64, decide_eq_true hlt, eq_self_iff_true, if_true,
          ht, hmod]
      have hofu : ofUint64 (2 ^ 63) = .finite ((2 ^ 63 : ℤ) : ℚ) := by
        rw [ofUint64]
        have hc : ((2 ^ 63 : ℕ) : ℚ) = ((2 ^ 63 : ℤ) : ℚ) := by push_cast; norm_num
        rw [hc]
        exact roundFloat_repr _ (2 ^ 52) 11
          (by rw [abs_of_nonneg (by positivity : (0:ℤ) ≤ 2 ^ 52)]; norm_num)
          (by norm_num) (by norm_num) (by push_cast; norm_num)
      have hne2 : GoFloat.goEq (.finite q) (.finite ((2 ^ 63 : ℤ) : ℚ)) = false := by
        simp only [GoFloat.goEq, decide_eq_false_iff_not]
        intro h
        rw [← hq'] at h
        have hcontr : q.num = 2 ^ 63 := by exact_mod_cast h
        omega
      have hofu' : ofUint64 (GoFloat.toUint64 (.finite q))
          = .finite ((2 ^ 63 : ℤ) : ℚ) := by
        rw [hu]; exact hofu
      simp only [jsonToYAMLValue, hofmin, hne1, Bool.false_eq_true, if_false,
        hofu', hne2]
    · -- at least 2^64: int64 clamps; the wrapped uint64 reads back too small
      have ht : GoFloat.toInt64 (.finite q) = -(2 ^ 63) := by
        simp only [GoFloat.toInt64, qtrunc_den_one q hden]
        rw [if_pos (Or.inr (by omega))]
      have hne1 : GoFloat.goEq (.finite q) (.finite ((-(2 ^ 63) : ℤ) : ℚ)) = false := by
        simp only [GoFloat.goEq, decide_eq_false_iff_not]
        intro h
        rw [← hq'] at h
        have hcontr : q.num = -(2 ^ 63) := by exact_mod_cast h
        omega
      have hofmin : ofInt64 (GoFloat.toInt64 (.finite q))
          = .finite ((-(2 ^ 63) : ℤ) : ℚ) := by
        rw [ht]; exact ofInt64_min
      have hq63 : ¬ q < qpow2 63 := by
        rw [qpow2_eq]
        push_neg
        calc (2:ℚ) ^ (63:ℤ) = ((2 ^ 63 : ℤ) : ℚ) := by norm_num
          _ ≤ ((q.num : ℤ) : ℚ) := by
              exact_mod_cast (show (2 ^ 63 : ℤ) ≤ q.num by omega)
          _ = q := hq'
      rcases (show q.num = 2 ^ 64 ∨ 2 ^ 64 < q.num by omega) with heq | hgt
      · -- exactly 2^64: the unsigned lowering wraps all the way to 0
        have hsub : GoFloat.subPow63 (.finite q) = .finite ((2 ^ 63 : ℤ) : ℚ) := by
          simp only [GoFloat.subPow63]
          rw [sub_qpow63_cast q hden,
            show q.num - 2 ^ 63 = (2 ^ 63 : ℤ) from by omega]
          exact roundFloat_repr _ (2 ^ 52) 11
            (by rw [abs_of_nonneg (by positivity : (0:ℤ) ≤ 2 ^ 52)]; norm_num)
            (by norm_num) (by norm_num) (by push_cast; norm_num)
        have hu : GoFloat.toUint64 (.finite q) = 0 := by
          simp only [GoFloat.toUint64, decide_eq_false hq63, Bool.false_eq_true,
            if_false, hsub, GoFloat.toInt64, qtrunc_intCast]
          rw [if_pos (Or.inr (by norm_num))]
          norm_num
        have hofu : ofUint64 0 = .finite 0 := by
          rw [ofUint64, Nat.cast_zero, roundFloat, if_pos rfl]
        have hne2 : GoFloat.goEq (.finite q) (.finite 0) = false := by
          simp only [GoFloat.goEq, decide_eq_false_iff_not]
          intro h
          rw [← hq'] at h
          have hcontr : q.num = 0 := by exact_mod_cast h
          omega
        have hofu' : ofUint64 (GoFloat.toUint64 (.finite q)) = .finite 0 := by
          rw [hu]; exact hofu
        simp only [jsonToYAMLValue, hofmin, hne1, Bool.false_eq_true, if_false,
          hofu', hne2]
      · -- strictly above 2^64: q is at least 2^64 + 2^12, but the read-back
        -- of any uint64 is below 2^64 + 2^10
        have hqge : ((2 ^ 64 + 2 ^ 12 : ℤ) : ℚ) ≤ q := by
          conv_rhs => rw [← hq']
          exact_mod_cast valid_gt_pow64 q m p hm hq hden hgt
        have hne2 : GoFloat.goEq (.finite q)
            (ofUint64 (GoFloat.toUint64 (.finite q))) = false := by
          set u := GoFloat.toUint64 (.finite q) with hudef
          rw [ofUint64]
          have hcast : ((u : ℕ) : ℚ) = (((u : ℤ)) : ℚ) := by push_cast; rfl
          rw [hcast]
          have hu0 : (0:ℚ) ≤ (((u : ℤ)) : ℚ) := by positivity
          have hu1 : (((u : ℤ)) : ℚ) < (2:ℚ) ^ (64:ℤ) := by
            calc (((u : ℤ)) : ℚ) < ((2 ^ 64 : ℤ) : ℚ) := by
                  exact_mod_cast toUint64_lt (.finite q)
              _ = (2:ℚ) ^ (64:ℤ) := by norm_num
          rcases roundFloat_int (u : ℤ) with ⟨k, hk⟩ | hk | hk <;> rw [hk]
          · simp only [GoFloat.goEq, decide_eq_false_iff_not]
            intro h
            have hkle : (k : ℚ) ≤ (((u : ℤ)) : ℚ) + (2:ℚ) ^ (10:ℤ) :=
              roundFloat_le _ hu0 hu1 _ hk
            have hq2 : ((2 ^ 64 + 2 ^ 12 : ℤ) : ℚ)
                = (2:ℚ) ^ (64:ℤ) + (2:ℚ) ^ (12:ℤ) := by norm_num
            have h10 : (2:ℚ) ^ (10:ℤ) < (2:ℚ) ^ (12:ℤ) := by norm_num
            rw [hq2, h] at hqge
            linarith [hqge, hkle, hu1, h10]
          · rfl
          · rfl
        simp only [jsonToYAMLValue, hofmin, hne1, Bool.false_eq_true, if_false, hne2]

theorem jsonFloat_inf : jsonToYAMLValue (.jfloat .inf) = .jfloat .inf := by
  with_unfolding_all decide

theorem jsonFloat_neginf : jsonToYAMLValue (.jfloat .neginf) = .jfloat .neginf := by
  with_unfolding_all decide

theorem jsonFloat_nan : jsonToYAMLValue (.jfloat .nan) = .jfloat .nan := by
  with_unfolding_all decide

/-- C7: `jsonToYAMLValue` downcasts a float64 to a signed integer
exactly when that is lossless (the value is an integer representable in
`int64`); otherwise to an unsigned integer exactly when that is
lossless (an integer in `[2^63, 2^64)`); otherwise it keeps the float
(including the infinities and NaN).  An `int64` is downcast to
native-width `int` (lossless on a 64-bit platform, so always); strings
and booleans are returned unchanged.  Finite floats are taken with their
binary64 representation `q = m * 2^p`, `|m| < 2^53`,
`-1074 ≤ p ≤ 971`; the integer conversions follow the amd64 semantics. -/
theorem c7_theorem :
    (∀ (q : ℚ) (m p : Int), |m| < 2 ^ 53 → -1074 ≤ p → p ≤ 971 →
        q = (m : ℚ) * (2:ℚ) ^ p →
        ((q.den = 1 ∧ -(2 ^ 63) ≤ q.num ∧ q.num < 2 ^ 63 →
            jsonToYAMLValue (.jfloat (.finite q)) = .jint q.num)
          ∧ (q.den = 1 ∧ 2 ^ 63 ≤ q.num ∧ q.num < 2 ^ 64 →
            jsonToYAMLValue (.jfloat (.finite q)) = .juint64 q.num.toNat)
          ∧ (¬(q.den = 1 ∧ -(2 ^ 63) ≤ q.num ∧ q.num < 2 ^ 64) →
            jsonToYAMLValue (.jfloat (.finite q)) = .jfloat (.finite q))))
      ∧ jsonToYAMLValue (.jfloat .inf) = .jfloat .inf
      ∧ jsonToYAMLValue (.jfloat .neginf) = .jfloat .neginf
      ∧ jsonToYAMLValue (.jfloat .nan) = .jfloat .nan
      ∧ (∀ n : Int, jsonToYAMLValue (.jint64 n) = .jint n)
      ∧ (∀ s : String, jsonToYAMLValue (.jstr s) = .jstr s)
      ∧ (∀ b : Bool, jsonToYAMLValue (.jbool b) = .jbool b)
      ∧ jsonToYAMLValue .jnull = .jnull := by
  refine ⟨?_, jsonFloat_inf, jsonFloat_neginf, jsonFloat_nan, ?_, ?_, ?_, rfl⟩
  · intro q m p hm hp1 hp2 hq
    exact ⟨fun h => jsonFloat_signed q m p hm hp1 hp2 hq h.1 h.2.1 h.2.2,
      fun h => jsonFloat_unsigned q m p hm hp1 hp2 hq h.1 h.2.1 h.2.2,
      fun h => jsonFloat_keep q m p hm hp1 hp2 hq h⟩
  · intro n
    simp [jsonToYAMLValue, goIntOfInt64]
  · intro s
    rfl
  · intro b
    rfl

/-- The float64 value 3 is downcast to the signed integer 3. -/
theorem c7_witness :
    jsonToYAMLValue (.jfloat (.finite ((3 : ℤ) : ℚ))) = .jint ((3 : ℤ) : ℚ).num :=
  (c7_theorem.1 ((3 : ℤ) : ℚ) 3 0
    (by rw [abs_of_nonneg (by norm_num : (0:ℤ) ≤ 3)]; norm_num)
    (by norm_num) (by norm_num) (by norm_num)).1
    ⟨by rw [Rat.den_intCast], by rw [Rat.num_intCast]; norm_num,
      by rw [Rat.num_intCast]; norm_num⟩

end SigsYaml
